import Mathlib

set_option maxHeartbeats 1000000

set_option maxRecDepth 100000

/- Verification of scripts/update-homebrew-formula.py.

   Strings are modelled as lists of characters.  Python str.replace is
   modelled by replaceAll (leftmost, non-overlapping, all occurrences),
   str.strip by pyStrip (the full Unicode whitespace set of str.strip),
   str.startswith by List.isPrefixOf, str.splitlines by pySplitlines
   (splitting at every character str.splitlines breaks at, with "\r\n"
   as a single boundary and no trailing empty piece), '\n'.join by
   joinNl, and version.lstrip("v") by dropping every leading 'v'.
   The in-place line scan of update_formula is modelled by scanStep /
   scanIdx / scanLines, which mutate the current line list exactly as
   the Python loop does.  A raised RuntimeError is an Except.error
   carrying the message text; the file write is modelled by runOnDisk,
   which keeps the original content when the function errors. -/

/-- The characters Python str.strip() removes: exactly those for which
    str.isspace() holds. -/
def isWs (c : Char) : Bool :=
  c = ' ' || c = '\t' || c = '\n' || c = '\x0b' || c = '\x0c' || c = '\r' ||
  c = '\x1c' || c = '\x1d' || c = '\x1e' || c = '\x1f' || c = '\x85' ||
  c = '\xa0' || c = ' ' || c = ' ' || c = ' ' || c = ' ' ||
  c = ' ' || c = ' ' || c = ' ' || c = ' ' || c = ' ' ||
  c = ' ' || c = ' ' || c = ' ' || c = ' ' || c = ' ' ||
  c = ' ' || c = ' ' || c = '　'

/-- The line-boundary characters of Python str.splitlines; the pair
    "\r\n" additionally counts as a single boundary. -/
def isLB (c : Char) : Bool :=
  c = '\n' || c = '\r' || c = '\x0b' || c = '\x0c' ||
  c = '\x1c' || c = '\x1d' || c = '\x1e' || c = '\x85' ||
  c = ' ' || c = ' '

def pyLstrip (l : List Char) : List Char := l.dropWhile isWs

def pyRstrip (l : List Char) : List Char := (l.reverse.dropWhile isWs).reverse

def pyStrip (l : List Char) : List Char := pyRstrip (pyLstrip l)

def armAnchor : List Char := "on_arm do".data

def intelAnchor : List Char := "on_intel do".data

def shaKey : List Char := "sha256 ".data

def isArmLine (l : List Char) : Bool := pyStrip l = armAnchor

def isIntelLine (l : List Char) : Bool := pyStrip l = intelAnchor

def isShaLine (l : List Char) : Bool := shaKey.isPrefixOf (pyStrip l)

/-- Python str.replace with a nonempty pattern: replace every
    leftmost, non-overlapping occurrence.  Fuel-based so that the
    definition is structurally recursive and kernel-computable. -/
def replaceAllF (pat repl : List Char) : Nat → List Char → List Char
  | _, [] => []
  | 0, s => s
  | f + 1, c :: rest =>
    if pat.isPrefixOf (c :: rest) then
      repl ++ replaceAllF pat repl f (rest.drop (pat.length - 1))
    else
      c :: replaceAllF pat repl f rest

def replaceAll (pat repl s : List Char) : List Char :=
  if pat = [] then s else replaceAllF pat repl s.length s

/-- Python str.splitlines: split at every line-boundary character,
    with "\r\n" as a single boundary and no trailing empty piece when
    the text ends with a boundary. -/
def splitAux : List Char → List Char → List (List Char)
  | [], acc => [acc.reverse]
  | [c], acc => if isLB c then [acc.reverse] else [(c :: acc).reverse]
  | c :: d :: t, acc =>
    if isLB c then
      if c = '\r' ∧ d = '\n' then
        match t with
        | [] => [acc.reverse]
        | e :: t3 => acc.reverse :: splitAux (e :: t3) []
      else
        acc.reverse :: splitAux (d :: t) []
    else
      splitAux (d :: t) (c :: acc)

def pySplitlines : List Char → List (List Char)
  | [] => []
  | c :: t => splitAux (c :: t) []

def joinNl : List (List Char) → List Char
  | [] => []
  | [l] => l
  | l :: l₂ :: t => l ++ '\n' :: joinNl (l₂ :: t)

/-- Substring test (Python `in`). -/
def containsSub (pat : List Char) : List Char → Bool
  | [] => pat.isEmpty
  | c :: rest => pat.isPrefixOf (c :: rest) || containsSub pat rest

/- ---- the three literal substitutions of update_formula ---- -/

def pat1 : List Char := "version \"0.0.0\"".data

def repl1 (version : List Char) : List Char :=
  "version \"".data ++ version.dropWhile (fun c => c = 'v') ++ "\"".data

def pat2 : List Char :=
  "releases/download/v0.0.0/velar-darwin-arm64-v0.0.0.tar.gz".data

def repl2 (version : List Char) : List Char :=
  "releases/download/".data ++ version ++ "/velar-darwin-arm64-".data ++
    version ++ ".tar.gz".data

def pat3 : List Char :=
  "releases/download/v0.0.0/velar-darwin-x86_64-v0.0.0.tar.gz".data

def repl3 (version : List Char) : List Char :=
  "releases/download/".data ++ version ++ "/velar-darwin-x86_64-".data ++
    version ++ ".tar.gz".data

def phase1 (version text : List Char) : List Char :=
  replaceAll pat3 (repl3 version)
    (replaceAll pat2 (repl2 version)
      (replaceAll pat1 (repl1 version) text))

/- ---- the line scan ---- -/

def shaLineFor (sha : List Char) : List Char :=
  "      sha256 \"".data ++ sha ++ "\"".data

/-- The inner lookahead loop: first j in [i+1, min (i+8) len) whose
    line strips to a string starting with the sha256 keyword. -/
def findShaIdx (lines : List (List Char)) (i : Nat) : Option Nat :=
  (List.range' (i + 1) (min (i + 8) lines.length - (i + 1))).find?
    (fun j => isShaLine (lines.getD j []))

structure ScanState where
  lines : List (List Char)
  arm_set : Bool
  intel_set : Bool
  deriving Repr, DecidableEq

/-- The 'on_arm do' branch of one loop iteration; line is the Python
    loop variable, the snapshot of the current line at index i. -/
def scanArm (sha : List Char) (line : List Char) (i : Nat) (st : ScanState) : ScanState :=
  if isArmLine line then
    match findShaIdx st.lines i with
    | some j => { st with lines := st.lines.set j (shaLineFor sha), arm_set := true }
    | none => st
  else st

/-- The 'on_intel do' branch of one loop iteration. -/
def scanIntel (sha : List Char) (line : List Char) (i : Nat) (st : ScanState) : ScanState :=
  if isIntelLine line then
    match findShaIdx st.lines i with
    | some j => { st with lines := st.lines.set j (shaLineFor sha), intel_set := true }
    | none => st
  else st

/-- One iteration of the Python for-loop at index i, reading and
    mutating the current line list; both branches test the snapshot
    line, the second branch scans the possibly already mutated list. -/
def scanStep (sha_arm64 sha_x86_64 : List Char) (st : ScanState) (i : Nat) : ScanState :=
  scanIntel sha_x86_64 (st.lines.getD i []) i
    (scanArm sha_arm64 (st.lines.getD i []) i st)

def scanIdx (sha_arm64 sha_x86_64 : List Char) : List Nat → ScanState → ScanState
  | [], st => st
  | i :: rest, st => scanIdx sha_arm64 sha_x86_64 rest (scanStep sha_arm64 sha_x86_64 st i)

def scanLines (sha_arm64 sha_x86_64 : List Char) (lines : List (List Char)) : ScanState :=
  scanIdx sha_arm64 sha_x86_64 (List.range lines.length)
    { lines := lines, arm_set := false, intel_set := false }

/- ---- the whole function ---- -/

def errMsg (path : List Char) : List Char :=
  "Failed to update sha256 in ".data ++ path

def update_formula (path version sha_arm64 sha_x86_64 text : List Char) :
    Except (List Char) (List Char) :=
  let st := scanLines sha_arm64 sha_x86_64 (pySplitlines (phase1 version text))
  if st.arm_set && st.intel_set then
    Except.ok (joinNl st.lines ++ ['\n'])
  else
    Except.error (errMsg path)

/-- The content of the target file after one invocation: the original
    content is kept when update_formula raises. -/
def runOnDisk (path version sha_arm64 sha_x86_64 text : List Char) : List Char :=
  match update_formula path version sha_arm64 sha_x86_64 text with
  | Except.ok out => out
  | Except.error _ => text

/- ---- static description of the scan, used by the theorems ---- -/

/-- The write actions the scan performs, read off the pre-scan lines:
    for each anchor line, the first sha256 line in its 7-line window
    is set to the architecture-appropriate assignment. -/
def writesOn (lines : List (List Char)) (sha_arm64 sha_x86_64 : List Char)
    (idxs : List Nat) : List (Nat × List Char) :=
  idxs.filterMap (fun i =>
    if isArmLine (lines.getD i []) then
      (findShaIdx lines i).map (fun j => (j, shaLineFor sha_arm64))
    else if isIntelLine (lines.getD i []) then
      (findShaIdx lines i).map (fun j => (j, shaLineFor sha_x86_64))
    else none)

def applyWrites (lines : List (List Char)) (ws : List (Nat × List Char)) :
    List (List Char) :=
  ws.foldl (fun acc p => acc.set p.1 p.2) lines

def armHit (lines : List (List Char)) (idxs : List Nat) : Bool :=
  idxs.any (fun i => isArmLine (lines.getD i []) && (findShaIdx lines i).isSome)

def intelHit (lines : List (List Char)) (idxs : List Nat) : Bool :=
  idxs.any (fun i => isIntelLine (lines.getD i []) && (findShaIdx lines i).isSome)

/- ---- basic lemmas: isPrefixOf, containsSub ---- -/

theorem isPrefixOf_iff (l₁ l₂ : List Char) :
    l₁.isPrefixOf l₂ = true ↔ ∃ t, l₂ = l₁ ++ t := by
  induction l₁ generalizing l₂ with
  | nil => simp [List.isPrefixOf]
  | cons a as ih =>
    cases l₂ with
    | nil => simp [List.isPrefixOf]
    | cons b bs =>
      simp only [List.isPrefixOf, Bool.and_eq_true, beq_iff_eq, ih, List.cons_append,
        List.cons.injEq]
      constructor
      · rintro ⟨h1, t, h2⟩; exact ⟨t, h1.symm, h2⟩
      · rintro ⟨t, h1, h2⟩; exact ⟨h1.symm, t, h2⟩

theorem isPrefixOf_length {l₁ l₂ : List Char} (h : l₁.isPrefixOf l₂ = true) :
    l₁.length ≤ l₂.length := by
  rcases (isPrefixOf_iff l₁ l₂).1 h with ⟨t, rfl⟩
  simp

theorem isPrefixOf_append_right {l₁ l₂ : List Char} (t : List Char)
    (h : l₁.isPrefixOf l₂ = true) : l₁.isPrefixOf (l₂ ++ t) = true := by
  rcases (isPrefixOf_iff l₁ l₂).1 h with ⟨u, rfl⟩
  exact (isPrefixOf_iff _ _).2 ⟨u ++ t, by simp⟩

theorem isPrefixOf_self (l t : List Char) : l.isPrefixOf (l ++ t) = true :=
  (isPrefixOf_iff _ _).2 ⟨t, rfl⟩

theorem isPrefixOf_cons_of_ne_head {pat : List Char} {p₀ c : Char} {l : List Char}
    (hpat : pat.head? = some p₀) (hne : p₀ ≠ c) :
    pat.isPrefixOf (c :: l) = false := by
  cases pat with
  | nil => simp at hpat
  | cons q qs =>
    simp only [List.head?_cons, Option.some.injEq] at hpat
    subst hpat
    simp [List.isPrefixOf, hne]

/-- A pattern with a head not occurring outside the boundary cannot be a
    prefix of u ++ w beyond u. -/
theorem isPrefixOf_append_of_head_notMem {p u w : List Char}
    (hw : w ≠ []) (hhead : ∀ c ∈ p, w.head? ≠ some c) :
    p.isPrefixOf (u ++ w) = p.isPrefixOf u := by
  induction p generalizing u with
  | nil => simp [List.isPrefixOf]
  | cons q qs ih =>
    cases u with
    | nil =>
      cases w with
      | nil => exact absurd rfl hw
      | cons w₀ ws =>
        have : w₀ ≠ q := by
          intro h; exact hhead q (by simp) (by simp [h])
        simp [List.isPrefixOf, this, Ne.symm this]
    | cons u₀ us =>
      simp only [List.cons_append, List.isPrefixOf, List.append_eq]
      rw [ih (fun c hc => hhead c (by simp [hc]))]

theorem containsSub_iff (pat l : List Char) :
    containsSub pat l = true ↔ ∃ a b, l = a ++ pat ++ b := by
  induction l with
  | nil =>
    simp only [containsSub, List.isEmpty_iff]
    constructor
    · rintro rfl; exact ⟨[], [], rfl⟩
    · rintro ⟨a, b, h⟩
      rcases List.append_eq_nil.1 h.symm with ⟨h1, h2⟩
      exact (List.append_eq_nil.1 h1).2
  | cons c rest ih =>
    simp only [containsSub, Bool.or_eq_true, isPrefixOf_iff, ih]
    constructor
    · rintro (⟨t, ht⟩ | ⟨a, b, hab⟩)
      · exact ⟨[], t, by simpa using ht⟩
      · exact ⟨c :: a, b, by simp [hab]⟩
    · rintro ⟨a, b, hab⟩
      cases a with
      | nil => exact Or.inl ⟨b, by simpa using hab⟩
      | cons a₀ as =>
        simp only [List.cons_append, List.cons.injEq] at hab
        exact Or.inr ⟨as, b, hab.2⟩

theorem containsSub_of_append (pat a b : List Char) :
    containsSub pat (a ++ pat ++ b) = true :=
  (containsSub_iff _ _).2 ⟨a, b, rfl⟩

theorem containsSub_mono {pat l : List Char} (h : containsSub pat l = true)
    (a b : List Char) : containsSub pat (a ++ l ++ b) = true := by
  rcases (containsSub_iff _ _).1 h with ⟨u, v, rfl⟩
  exact (containsSub_iff _ _).2 ⟨a ++ u, v ++ b, by simp⟩

theorem mem_of_containsSub {pat l : List Char} (h : containsSub pat l = true) :
    ∀ c ∈ pat, c ∈ l := by
  rcases (containsSub_iff _ _).1 h with ⟨a, b, rfl⟩
  intro c hc
  simp [hc]

/- ---- lemmas about replaceAll ---- -/

theorem replaceAllF_fuel (pat repl : List Char) :
    ∀ (f : Nat) (s : List Char), s.length ≤ f →
      replaceAllF pat repl f s = replaceAllF pat repl s.length s := by
  intro f
  induction f using Nat.strong_induction_on with
  | _ f ih =>
    intro s hs
    cases s with
    | nil => cases f <;> rfl
    | cons c rest =>
      obtain ⟨f', rfl⟩ : ∃ f', f = f' + 1 := ⟨f - 1, by simp at hs; omega⟩
      have hr : rest.length ≤ f' := by simp at hs; omega
      show replaceAllF pat repl (f' + 1) (c :: rest) =
        replaceAllF pat repl (rest.length + 1) (c :: rest)
      simp only [replaceAllF]
      by_cases hpre : pat.isPrefixOf (c :: rest) = true
      · simp only [hpre, if_true]
        have hd : (rest.drop (pat.length - 1)).length ≤ f' := by
          simp [List.length_drop]; omega
        have hd2 : (rest.drop (pat.length - 1)).length ≤ rest.length := by
          simp [List.length_drop]
        rw [ih f' (by omega) _ hd, ih rest.length (by omega) _ hd2]
      · simp only [Bool.not_eq_true] at hpre
        simp only [hpre, Bool.false_eq_true, if_false]
        rw [ih f' (by omega) rest hr, ih rest.length (by omega) rest le_rfl]

theorem replaceAll_nil (pat repl : List Char) : replaceAll pat repl [] = [] := by
  unfold replaceAll
  split <;> rfl

theorem replaceAll_cons_pos {pat : List Char} (repl : List Char) {c : Char}
    {rest : List Char} (hp : pat ≠ []) (h : pat.isPrefixOf (c :: rest) = true) :
    replaceAll pat repl (c :: rest) =
      repl ++ replaceAll pat repl ((c :: rest).drop pat.length) := by
  obtain ⟨m, hm⟩ : ∃ m, pat.length = m + 1 := by
    cases pat with
    | nil => exact absurd rfl hp
    | cons p ps => exact ⟨ps.length, by simp⟩
  have hdrop : (c :: rest).drop pat.length = rest.drop (pat.length - 1) := by
    rw [hm, List.drop_succ_cons]
    simp
  unfold replaceAll
  rw [if_neg hp, if_neg hp, hdrop]
  show replaceAllF pat repl (rest.length + 1) (c :: rest) = _
  simp only [replaceAllF, h, if_true]
  rw [replaceAllF_fuel pat repl rest.length (rest.drop (pat.length - 1))
    (by simp [List.length_drop])]

theorem replaceAll_cons_neg {pat : List Char} (repl : List Char) {c : Char}
    {rest : List Char} (hp : pat ≠ []) (h : pat.isPrefixOf (c :: rest) = false) :
    replaceAll pat repl (c :: rest) = c :: replaceAll pat repl rest := by
  unfold replaceAll
  rw [if_neg hp, if_neg hp]
  show replaceAllF pat repl (rest.length + 1) (c :: rest) = _
  simp only [replaceAllF, h, Bool.false_eq_true, if_false]

theorem replaceAll_pos {pat : List Char} (repl : List Char) {s : List Char}
    (hp : pat ≠ []) (h : pat.isPrefixOf s = true) :
    replaceAll pat repl s = repl ++ replaceAll pat repl (s.drop pat.length) := by
  cases s with
  | nil =>
    rcases (isPrefixOf_iff _ _).1 h with ⟨t, ht⟩
    rcases List.append_eq_nil.1 ht.symm with ⟨h1, _⟩
    exact absurd h1 hp
  | cons c rest => exact replaceAll_cons_pos repl hp h

/-- No occurrence of pat means replaceAll is the identity. -/
theorem replaceAll_of_not_contains {pat repl s : List Char}
    (h : containsSub pat s = false) : replaceAll pat repl s = s := by
  have hp : pat ≠ [] := by
    intro hp
    subst hp
    cases s with
    | nil => simp [containsSub, List.isEmpty] at h
    | cons c rest => simp [containsSub, List.isPrefixOf] at h
  induction s with
  | nil => exact replaceAll_nil pat repl
  | cons c rest ih =>
    simp only [containsSub, Bool.or_eq_false_iff] at h
    rw [replaceAll_cons_neg repl hp h.1, ih h.2]

theorem mem_replaceAll {pat repl : List Char} :
    ∀ s, ∀ c ∈ replaceAll pat repl s, c ∈ s ∨ c ∈ repl := by
  by_cases hp : pat = []
  · subst hp
    intro s c hc
    unfold replaceAll at hc
    simp at hc
    exact Or.inl hc
  · suffices h : ∀ n s, s.length ≤ n → ∀ c ∈ replaceAll pat repl s, c ∈ s ∨ c ∈ repl by
      exact fun s => h s.length s le_rfl
    intro n
    induction n with
    | zero =>
      intro s hs c hc
      rw [List.length_eq_zero.1 (Nat.le_zero.1 hs)] at hc ⊢
      rw [replaceAll_nil] at hc
      simp at hc
    | succ n ihn =>
      intro s hs c hc
      cases s with
      | nil => rw [replaceAll_nil] at hc; simp at hc
      | cons c₀ rest =>
        by_cases hpre : pat.isPrefixOf (c₀ :: rest) = true
        · rw [replaceAll_cons_pos repl hp hpre] at hc
          rcases List.mem_append.1 hc with hcr | hcr
          · exact Or.inr hcr
          · have hlen : ((c₀ :: rest).drop pat.length).length ≤ n := by
              simp [List.length_drop] at hs ⊢
              have : 1 ≤ pat.length := by
                cases pat with
                | nil => exact absurd rfl hp
                | cons p ps => simp
              omega
            rcases ihn _ hlen c hcr with hm | hm
            · exact Or.inl ((List.drop_sublist _ _).mem hm)
            · exact Or.inr hm
        · rw [replaceAll_cons_neg repl hp (Bool.not_eq_true _ ▸ hpre)] at hc
          rcases List.mem_cons.1 hc with rfl | hcr
          · exact Or.inl (by simp)
          · rcases ihn rest (by simp at hs; omega) c hcr with hm | hm
            · exact Or.inl (by simp [hm])
            · exact Or.inr hm

/-- If replaceAll changed anything, the replacement occurs in the result. -/
theorem replaceAll_ne_imp_contains {pat repl : List Char} :
    ∀ s, replaceAll pat repl s ≠ s → containsSub repl (replaceAll pat repl s) = true := by
  by_cases hp : pat = []
  · subst hp
    intro s hs
    unfold replaceAll at hs
    simp at hs
  · suffices h : ∀ n s, s.length ≤ n → replaceAll pat repl s ≠ s →
        containsSub repl (replaceAll pat repl s) = true by
      exact fun s => h s.length s le_rfl
    intro n
    induction n with
    | zero =>
      intro s hs hne
      rw [List.length_eq_zero.1 (Nat.le_zero.1 hs)] at hne
      exact absurd (replaceAll_nil pat repl) hne
    | succ n ihn =>
      intro s hs hne
      cases s with
      | nil => exact absurd (replaceAll_nil pat repl) hne
      | cons c₀ rest =>
        by_cases hpre : pat.isPrefixOf (c₀ :: rest) = true
        · rw [replaceAll_cons_pos repl hp hpre]
          exact (containsSub_iff _ _).2
            ⟨[], replaceAll pat repl ((c₀ :: rest).drop pat.length), by simp⟩
        · rw [replaceAll_cons_neg repl hp (Bool.not_eq_true _ ▸ hpre)] at hne ⊢
          have hne2 : replaceAll pat repl rest ≠ rest := by
            intro h; exact hne (by rw [h])
          have := ihn rest (by simp at hs; omega) hne2
          rcases (containsSub_iff _ _).1 this with ⟨a, b, hab⟩
          exact (containsSub_iff _ _).2 ⟨c₀ :: a, b, by simp [hab]⟩

/-- A pattern occurrence makes the replacement appear in the result. -/
theorem replaceAll_contains_repl {pat repl : List Char} (hp : pat ≠ []) :
    ∀ s, containsSub pat s = true → containsSub repl (replaceAll pat repl s) = true := by
  suffices h : ∀ n s, s.length ≤ n → containsSub pat s = true →
      containsSub repl (replaceAll pat repl s) = true by
    exact fun s => h s.length s le_rfl
  intro n
  induction n with
  | zero =>
    intro s hs hc
    rw [List.length_eq_zero.1 (Nat.le_zero.1 hs)] at hc
    simp [containsSub, List.isEmpty_iff] at hc
    exact absurd hc hp
  | succ n ihn =>
    intro s hs hc
    cases s with
    | nil =>
      simp [containsSub, List.isEmpty_iff] at hc
      exact absurd hc hp
    | cons c₀ rest =>
      by_cases hpre : pat.isPrefixOf (c₀ :: rest) = true
      · rw [replaceAll_cons_pos repl hp hpre]
        exact (containsSub_iff _ _).2
          ⟨[], replaceAll pat repl ((c₀ :: rest).drop pat.length), by simp⟩
      · have hpre' : pat.isPrefixOf (c₀ :: rest) = false := Bool.not_eq_true _ ▸ hpre
        rw [replaceAll_cons_neg repl hp hpre']
        simp only [containsSub, hpre', Bool.false_or] at hc
        rcases (containsSub_iff _ _).1 (ihn rest (by simp at hs; omega) hc) with ⟨a, b, hab⟩
        exact (containsSub_iff _ _).2 ⟨c₀ :: a, b, by simp [hab]⟩

/- ---- lemmas about pySplitlines and joinNl ---- -/

theorem splitAux_nil (acc : List Char) : splitAux [] acc = [acc.reverse] := rfl

theorem splitAux_lb_nil {c : Char} (h : isLB c = true) (acc : List Char) :
    splitAux [c] acc = [acc.reverse] := by
  conv_lhs => unfold splitAux
  rw [if_pos h]

theorem splitAux_lb_cons {c d : Char} (h : isLB c = true)
    (h2 : ¬ (c = '\r' ∧ d = '\n')) (t acc : List Char) :
    splitAux (c :: d :: t) acc = acc.reverse :: splitAux (d :: t) [] := by
  conv_lhs => unfold splitAux
  rw [if_pos h, if_neg h2]

theorem splitAux_crlf_nil (acc : List Char) :
    splitAux ['\r', '\n'] acc = [acc.reverse] := rfl

theorem splitAux_crlf_cons (e : Char) (t acc : List Char) :
    splitAux ('\r' :: '\n' :: e :: t) acc = acc.reverse :: splitAux (e :: t) [] := rfl

theorem splitAux_not_lb {c : Char} (h : isLB c = false) (t acc : List Char) :
    splitAux (c :: t) acc = splitAux t (c :: acc) := by
  cases t with
  | nil =>
    conv_lhs => unfold splitAux
    rw [if_neg (by simp [h])]
    rfl
  | cons d t2 =>
    conv_lhs => unfold splitAux
    rw [if_neg (by simp [h])]

theorem splitAux_nl_nil (acc : List Char) : splitAux ['\n'] acc = [acc.reverse] := rfl

theorem splitAux_nl_cons (d : Char) (t acc : List Char) :
    splitAux ('\n' :: d :: t) acc = acc.reverse :: splitAux (d :: t) [] :=
  splitAux_lb_cons (by decide) (fun h => absurd h.1 (by decide)) t acc

theorem splitAux_shift :
    ∀ (s acc : List Char), ∃ hd tl, splitAux s [] = hd :: tl ∧
      splitAux s acc = (acc.reverse ++ hd) :: tl := by
  intro s
  induction s with
  | nil => exact fun acc => ⟨[], [], rfl, by simp [splitAux_nil]⟩
  | cons c t ih =>
    intro acc
    by_cases hc : isLB c = true
    · cases t with
      | nil =>
        exact ⟨[], [], by simp [splitAux_lb_nil hc], by simp [splitAux_lb_nil hc]⟩
      | cons d t' =>
        by_cases hcr : c = '\r' ∧ d = '\n'
        · obtain ⟨rfl, rfl⟩ := hcr
          cases t' with
          | nil =>
            exact ⟨[], [], by simp [splitAux_crlf_nil], by simp [splitAux_crlf_nil]⟩
          | cons e t3 =>
            exact ⟨[], splitAux (e :: t3) [], by rw [splitAux_crlf_cons]; rfl,
              by rw [splitAux_crlf_cons]; simp⟩
        · exact ⟨[], splitAux (d :: t') [], by rw [splitAux_lb_cons hc hcr]; rfl,
            by rw [splitAux_lb_cons hc hcr]; simp⟩
    · have hc' : isLB c = false := by simpa using hc
      rw [splitAux_not_lb hc', splitAux_not_lb hc']
      obtain ⟨hd, tl, h1, h2⟩ := ih [c]
      obtain ⟨hd₂, tl₂, h1₂, h2₂⟩ := ih (c :: acc)
      rw [h1] at h1₂
      obtain ⟨rfl, rfl⟩ : hd = hd₂ ∧ tl = tl₂ := by
        injection h1₂ with ha hb
        exact ⟨ha, hb⟩
      refine ⟨c :: hd, tl, ?_, ?_⟩
      · rw [h2]; simp
      · rw [h2₂]; simp

theorem pySplitlines_nl (t : List Char) :
    pySplitlines ('\n' :: t) = [] :: pySplitlines t := by
  cases t with
  | nil => rfl
  | cons d t' =>
    show splitAux ('\n' :: d :: t') [] = [] :: splitAux (d :: t') []
    rw [splitAux_nl_cons]
    rfl

theorem pySplitlines_crlf (t : List Char) :
    pySplitlines ('\r' :: '\n' :: t) = [] :: pySplitlines t := by
  cases t with
  | nil => rfl
  | cons d t' =>
    show splitAux ('\r' :: '\n' :: d :: t') [] = [] :: splitAux (d :: t') []
    rw [splitAux_crlf_cons]
    rfl

theorem pySplitlines_lb_single {c : Char} (h : isLB c = true) (t : List Char)
    (h2 : c = '\r' → t.head? ≠ some '\n') :
    pySplitlines (c :: t) = [] :: pySplitlines t := by
  cases t with
  | nil =>
    show splitAux [c] [] = [[]]
    rw [splitAux_lb_nil h]
    rfl
  | cons d t2 =>
    show splitAux (c :: d :: t2) [] = [] :: splitAux (d :: t2) []
    rw [splitAux_lb_cons h (by rintro ⟨hc, hd⟩; exact h2 hc (by rw [hd]; rfl))]
    rfl

theorem pySplitlines_ne_nil (c : Char) (t : List Char) :
    pySplitlines (c :: t) ≠ [] := by
  show splitAux (c :: t) [] ≠ []
  obtain ⟨hd, tl, h1, _⟩ := splitAux_shift (c :: t) []
  rw [h1]
  simp

theorem pySplitlines_eq_nil {s : List Char} :
    pySplitlines s = [] ↔ s = [] := by
  cases s with
  | nil => simp [pySplitlines]
  | cons c t => simpa using pySplitlines_ne_nil c t

theorem pySplitlines_cons_nil {c : Char} (h : isLB c = false) {t : List Char}
    (ht : pySplitlines t = []) : pySplitlines (c :: t) = [[c]] := by
  rw [pySplitlines_eq_nil.1 ht]
  show splitAux [c] [] = [[c]]
  rw [splitAux_not_lb h, splitAux_nil]
  rfl

theorem pySplitlines_cons_cons {c : Char} (h : isLB c = false) {t hd : List Char}
    {tl : List (List Char)} (ht : pySplitlines t = hd :: tl) :
    pySplitlines (c :: t) = (c :: hd) :: tl := by
  have htne : t ≠ [] := by
    intro h0; rw [h0] at ht; simp [pySplitlines] at ht
  obtain ⟨d, t', rfl⟩ : ∃ d t', t = d :: t' := by
    cases t with
    | nil => exact absurd rfl htne
    | cons d t' => exact ⟨d, t', rfl⟩
  show splitAux (c :: d :: t') [] = (c :: hd) :: tl
  rw [splitAux_not_lb h]
  obtain ⟨hd₂, tl₂, h1, h2⟩ := splitAux_shift (d :: t') [c]
  have ht' : hd₂ = hd ∧ tl₂ = tl := by
    have : pySplitlines (d :: t') = hd₂ :: tl₂ := h1
    rw [ht] at this
    exact ⟨(List.cons.injEq _ _ _ _ ▸ this).1.symm, (List.cons.injEq _ _ _ _ ▸ this).2.symm⟩
  rw [h2, ht'.1, ht'.2]
  rfl

/-- A boundary-free nonempty string splits into a single line. -/
theorem pySplitlines_noLB {u : List Char} (hu : ∀ c ∈ u, isLB c = false)
    (hne : u ≠ []) : pySplitlines u = [u] := by
  induction u with
  | nil => exact absurd rfl hne
  | cons c u' ih =>
    have hc : isLB c = false := hu c (by simp)
    cases u' with
    | nil => exact pySplitlines_cons_nil hc rfl
    | cons d t =>
      have := ih (fun x hx => hu x (by simp [hx])) (by simp)
      exact pySplitlines_cons_cons hc this

/-- Splitting distributes over a boundary-free prefix. -/
theorem pySplitlines_append {u : List Char} (hu : ∀ c ∈ u, isLB c = false)
    {X hd : List Char} {tl : List (List Char)} (hX : pySplitlines X = hd :: tl) :
    pySplitlines (u ++ X) = (u ++ hd) :: tl := by
  induction u with
  | nil => simpa using hX
  | cons c u' ih =>
    have hc : isLB c = false := hu c (by simp)
    have := ih (fun x hx => hu x (by simp [hx]))
    rw [List.cons_append]
    rw [pySplitlines_cons_cons hc this]
    simp

/-- Every produced line is free of line-boundary characters. -/
theorem pySplitlines_lines_noLB :
    ∀ (s : List Char), ∀ l ∈ pySplitlines s, ∀ c ∈ l, isLB c = false := by
  suffices h : ∀ n s acc, s.length ≤ n → (∀ c ∈ acc, isLB c = false) →
      ∀ l ∈ splitAux s acc, ∀ c ∈ l, isLB c = false by
    intro s l hl
    cases s with
    | nil => simp [pySplitlines] at hl
    | cons c t => exact h (c :: t).length (c :: t) [] le_rfl (by simp) l hl
  intro n
  induction n with
  | zero =>
    intro s acc hs hacc l hl c hc
    rw [List.length_eq_zero.1 (Nat.le_zero.1 hs), splitAux_nil] at hl
    simp at hl
    subst hl
    exact hacc c (List.mem_reverse.1 hc)
  | succ n ihn =>
    intro s acc hs hacc l hl c hc
    cases s with
    | nil =>
      rw [splitAux_nil] at hl
      simp at hl
      subst hl
      exact hacc c (List.mem_reverse.1 hc)
    | cons c₀ t =>
      by_cases hc₀ : isLB c₀ = true
      · cases t with
        | nil =>
          rw [splitAux_lb_nil hc₀] at hl
          simp at hl
          subst hl
          exact hacc c (List.mem_reverse.1 hc)
        | cons d t' =>
          by_cases hcr : c₀ = '\r' ∧ d = '\n'
          · obtain ⟨rfl, rfl⟩ := hcr
            cases t' with
            | nil =>
              rw [splitAux_crlf_nil] at hl
              simp at hl
              subst hl
              exact hacc c (List.mem_reverse.1 hc)
            | cons e t3 =>
              rw [splitAux_crlf_cons] at hl
              rcases List.mem_cons.1 hl with rfl | hl'
              · exact hacc c (List.mem_reverse.1 hc)
              · exact ihn (e :: t3) [] (by simp at hs ⊢; omega) (by simp) l hl' c hc
          · rw [splitAux_lb_cons hc₀ hcr] at hl
            rcases List.mem_cons.1 hl with rfl | hl'
            · exact hacc c (List.mem_reverse.1 hc)
            · exact ihn (d :: t') [] (by simp at hs ⊢; omega) (by simp) l hl' c hc
      · have hc₀' : isLB c₀ = false := by simpa using hc₀
        rw [splitAux_not_lb hc₀'] at hl
        refine ihn t (c₀ :: acc) (by simp at hs; omega) ?_ l hl c hc
        intro x hx
        rcases List.mem_cons.1 hx with rfl | hx'
        · exact hc₀'
        · exact hacc x hx'

/-- The head of pySplitlines at a boundary character is the empty line. -/
theorem pySplitlines_lb_head {c : Char} (hc : isLB c = true) (t : List Char) :
    ∃ X, pySplitlines (c :: t) = [] :: X := by
  by_cases hcr : c = '\r' ∧ t.head? = some '\n'
  · obtain ⟨rfl, hh⟩ := hcr
    obtain ⟨t2, rfl⟩ : ∃ t2, t = '\n' :: t2 := by
      cases t with
      | nil => simp at hh
      | cons d t2 =>
        simp only [List.head?_cons, Option.some.injEq] at hh
        exact ⟨t2, by rw [hh]⟩
    exact ⟨pySplitlines t2, pySplitlines_crlf t2⟩
  · exact ⟨pySplitlines t, pySplitlines_lb_single hc t (fun h1 h2 => hcr ⟨h1, h2⟩)⟩

/-- The first produced line is a prefix of the text. -/
theorem pySplitlines_first {t hd : List Char} {tl : List (List Char)}
    (h : pySplitlines t = hd :: tl) : ∃ r, t = hd ++ r := by
  induction t generalizing hd tl with
  | nil => simp [pySplitlines] at h
  | cons c t' ih =>
    by_cases hc : isLB c = true
    · obtain ⟨X, hX⟩ := pySplitlines_lb_head hc t'
      rw [hX] at h
      obtain rfl : ([] : List Char) = hd := (List.cons.injEq _ _ _ _ ▸ h).1
      exact ⟨c :: t', rfl⟩
    · have hc' : isLB c = false := by simpa using hc
      cases ht' : pySplitlines t' with
      | nil =>
        rw [pySplitlines_cons_nil hc' ht'] at h
        obtain ⟨rfl, rfl⟩ : [c] = hd ∧ ([] : List (List Char)) = tl := by
          exact ⟨(List.cons.injEq _ _ _ _ ▸ h).1, (List.cons.injEq _ _ _ _ ▸ h).2⟩
        exact ⟨t', rfl⟩
      | cons hd₂ tl₂ =>
        rw [pySplitlines_cons_cons hc' ht'] at h
        obtain ⟨rfl, rfl⟩ : c :: hd₂ = hd ∧ tl₂ = tl := by
          exact ⟨(List.cons.injEq _ _ _ _ ▸ h).1, (List.cons.injEq _ _ _ _ ▸ h).2⟩
        obtain ⟨r, hr⟩ := ih ht'
        exact ⟨r, by simp [hr]⟩

theorem joinNl_cons {l : List Char} {ls : List (List Char)} (h : ls ≠ []) :
    joinNl (l :: ls) = l ++ '\n' :: joinNl ls := by
  cases ls with
  | nil => exact absurd rfl h
  | cons l₂ t => rfl

theorem joinNl_mem_decomp {l : List Char} {ls : List (List Char)} (h : l ∈ ls) :
    ∃ a b, joinNl ls = a ++ l ++ b := by
  induction ls with
  | nil => simp at h
  | cons l₀ t ih =>
    rcases List.mem_cons.1 h with rfl | h'
    · cases t with
      | nil => exact ⟨[], [], by simp [joinNl]⟩
      | cons l₁ t' =>
        exact ⟨[], '\n' :: joinNl (l₁ :: t'), by rw [joinNl_cons (by simp)]; simp⟩
    · obtain ⟨a, b, hab⟩ := ih h'
      have htne : t ≠ [] := by intro h0; rw [h0] at h'; simp at h'
      exact ⟨l₀ ++ '\n' :: a, b, by rw [joinNl_cons htne, hab]; simp⟩

theorem joinNl_getLast {ls : List (List Char)} {l : List Char}
    (h : ls.getLast? = some l) : ∃ a, joinNl ls = a ++ l := by
  induction ls with
  | nil => simp at h
  | cons l₀ t ih =>
    cases t with
    | nil =>
      simp only [List.getLast?_singleton, Option.some.injEq] at h
      exact ⟨[], by simp [joinNl, h]⟩
    | cons l₁ t' =>
      rw [List.getLast?_cons_cons] at h
      obtain ⟨a, ha⟩ := ih h
      exact ⟨l₀ ++ '\n' :: a, by rw [joinNl_cons (by simp), ha]; simp⟩

/-- Splitting the write-back text recovers the written lines. -/
theorem pySplitlines_joinNl {ls : List (List Char)} (hne : ls ≠ [])
    (hnl : ∀ l ∈ ls, ∀ c ∈ l, isLB c = false) :
    pySplitlines (joinNl ls ++ ['\n']) = ls := by
  induction ls with
  | nil => exact absurd rfl hne
  | cons l t ih =>
    cases t with
    | nil =>
      show pySplitlines (joinNl [l] ++ ['\n']) = [l]
      have : joinNl [l] = l := rfl
      rw [this]
      have h1 : pySplitlines ['\n'] = [[]] := rfl
      rw [pySplitlines_append (fun c hc => hnl l (by simp) c hc) h1]
      simp
    | cons l₂ t' =>
      rw [joinNl_cons (by simp)]
      have ih2 := ih (by simp) (fun x hx c hc => hnl x (by simp [hx]) c hc)
      have h2 : pySplitlines ('\n' :: (joinNl (l₂ :: t') ++ ['\n'])) =
          [] :: (l₂ :: t') := by
        rw [pySplitlines_nl, ih2]
      have h3 : l ++ '\n' :: joinNl (l₂ :: t') ++ ['\n'] =
          l ++ ('\n' :: (joinNl (l₂ :: t') ++ ['\n'])) := by simp
      rw [h3, pySplitlines_append (fun c hc => hnl l (by simp) c hc) h2]
      simp

/-- Replacement with a boundary-free replacement keeps a non-newline
    head character. -/
theorem replaceAll_head_not_nl {pat repl t : List Char} (hp : pat ≠ [])
    (hrne : repl ≠ []) (hrnl : ∀ c ∈ repl, isLB c = false)
    (ht : t.head? ≠ some '\n') :
    (replaceAll pat repl t).head? ≠ some '\n' := by
  cases t with
  | nil => rw [replaceAll_nil]; simp
  | cons c rest =>
    by_cases hpre : pat.isPrefixOf (c :: rest) = true
    · rw [replaceAll_cons_pos repl hp hpre]
      obtain ⟨r, rs, hrr⟩ : ∃ r rs, repl = r :: rs := by
        cases repl with
        | nil => exact absurd rfl hrne
        | cons r rs => exact ⟨r, rs, rfl⟩
      rw [hrr]
      simp only [List.cons_append, List.head?_cons]
      intro he
      have hre : r = '\n' := by simpa using he
      have h2 := hrnl r (by rw [hrr]; simp)
      rw [hre] at h2
      revert h2
      decide
    · rw [replaceAll_cons_neg repl hp (Bool.not_eq_true _ ▸ hpre)]
      simpa using ht

/-- With boundary-free pattern and nonempty boundary-free replacement,
    replaceAll acts line by line. -/
theorem pySplitlines_replaceAll {pat repl : List Char} (hp : pat ≠ []) (hr : repl ≠ [])
    (hpnl : ∀ c ∈ pat, isLB c = false) (hrnl : ∀ c ∈ repl, isLB c = false) :
    ∀ s, pySplitlines (replaceAll pat repl s) =
      (pySplitlines s).map (replaceAll pat repl) := by
  suffices h : ∀ n s, s.length ≤ n → pySplitlines (replaceAll pat repl s) =
      (pySplitlines s).map (replaceAll pat repl) by
    exact fun s => h s.length s le_rfl
  intro n
  induction n with
  | zero =>
    intro s hs
    rw [List.length_eq_zero.1 (Nat.le_zero.1 hs), replaceAll_nil]
    rfl
  | succ n ihn =>
    intro s hs
    cases s with
    | nil => rw [replaceAll_nil]; rfl
    | cons c t =>
      have hp0 : ∃ p₀ pat', pat = p₀ :: pat' := by
        cases pat with
        | nil => exact absurd rfl hp
        | cons p₀ pat' => exact ⟨p₀, pat', rfl⟩
      obtain ⟨p₀, pat', hpat⟩ := hp0
      have hp₀lb : isLB p₀ = false := hpnl p₀ (by simp [hpat])
      by_cases hc : isLB c = true
      · have hne0 : p₀ ≠ c := by
          intro h
          rw [h, hc] at hp₀lb
          exact absurd hp₀lb (by simp)
        have hpre : pat.isPrefixOf (c :: t) = false :=
          isPrefixOf_cons_of_ne_head (by simp [hpat]) hne0
        rw [replaceAll_cons_neg repl hp hpre]
        by_cases hcr : c = '\r' ∧ t.head? = some '\n'
        · obtain ⟨rfl, hh⟩ := hcr
          obtain ⟨t2, rfl⟩ : ∃ t2, t = '\n' :: t2 := by
            cases t with
            | nil => simp at hh
            | cons d t2 =>
              simp only [List.head?_cons, Option.some.injEq] at hh
              exact ⟨t2, by rw [hh]⟩
          have hne1 : p₀ ≠ '\n' := by
            intro h
            rw [h] at hp₀lb
            revert hp₀lb
            decide
          have hpre2 : pat.isPrefixOf ('\n' :: t2) = false :=
            isPrefixOf_cons_of_ne_head (by simp [hpat]) hne1
          rw [replaceAll_cons_neg repl hp hpre2, pySplitlines_crlf, pySplitlines_crlf]
          rw [ihn t2 (by simp at hs; omega)]
          simp [replaceAll_nil]
        · have hsing2 : pySplitlines (c :: replaceAll pat repl t) =
              [] :: pySplitlines (replaceAll pat repl t) := by
            apply pySplitlines_lb_single hc
            intro h1
            exact replaceAll_head_not_nl hp hr hrnl (fun hh => hcr ⟨h1, hh⟩)
          have hsing : pySplitlines (c :: t) = [] :: pySplitlines t :=
            pySplitlines_lb_single hc t (fun h1 h2 => hcr ⟨h1, h2⟩)
          rw [hsing2, hsing, ihn t (by simp at hs; omega)]
          simp [replaceAll_nil]
      · have hc' : isLB c = false := by simpa using hc
        by_cases hpre : pat.isPrefixOf (c :: t) = true
        · obtain ⟨u, hu⟩ := (isPrefixOf_iff _ _).1 hpre
          have hD : (c :: t).drop pat.length = u := by
            rw [hu, List.drop_left]
          have hlu : u.length ≤ n := by
            have h1 : t.length + 1 = pat.length + u.length := by
              have := congrArg List.length hu
              simpa using this
            have h2 : 1 ≤ pat.length := by simp [hpat]
            simp at hs
            omega
          rw [replaceAll_cons_pos repl hp hpre, hD]
          cases hsp : pySplitlines (replaceAll pat repl u) with
          | nil =>
            have h1 : replaceAll pat repl u = [] := pySplitlines_eq_nil.1 hsp
            have h2 := ihn u hlu
            rw [hsp] at h2
            have h3 : pySplitlines u = [] := by
              cases hx : pySplitlines u with
              | nil => rfl
              | cons a b => rw [hx] at h2; simp at h2
            have h4 : u = [] := pySplitlines_eq_nil.1 h3
            subst h4
            rw [h1, List.append_nil, pySplitlines_noLB hrnl hr, hu, List.append_nil,
              pySplitlines_noLB hpnl hp]
            have h5 : replaceAll pat repl pat = repl := by
              rw [replaceAll_pos repl hp (by simpa using isPrefixOf_self pat [])]
              rw [show List.drop pat.length pat = [] from by
                simpa using List.drop_left pat []]
              rw [replaceAll_nil, List.append_nil]
            simp [h5]
          | cons hd' tl' =>
            have h2 := ihn u hlu
            rw [hsp] at h2
            obtain ⟨hd, tl, hut, hhd, htl⟩ :
                ∃ hd tl, pySplitlines u = hd :: tl ∧
                  replaceAll pat repl hd = hd' ∧ tl.map (replaceAll pat repl) = tl' := by
              cases hx : pySplitlines u with
              | nil => rw [hx] at h2; simp at h2
              | cons a b =>
                rw [hx] at h2
                simp only [List.map_cons] at h2
                injection h2.symm with ha hb
                exact ⟨a, b, rfl, ha, hb⟩
            rw [pySplitlines_append hrnl hsp, hu, pySplitlines_append hpnl hut]
            simp only [List.map_cons, htl]
            have h5 : replaceAll pat repl (pat ++ hd) = repl ++ replaceAll pat repl hd := by
              rw [replaceAll_pos repl hp (isPrefixOf_self pat hd), List.drop_left]
            rw [h5, hhd]
        · have hpre' : pat.isPrefixOf (c :: t) = false := Bool.not_eq_true _ ▸ hpre
          rw [replaceAll_cons_neg repl hp hpre']
          cases hsp : pySplitlines (replaceAll pat repl t) with
          | nil =>
            have h1 : replaceAll pat repl t = [] := pySplitlines_eq_nil.1 hsp
            have h2 := ihn t (by simp at hs; omega)
            rw [hsp] at h2
            have h3 : pySplitlines t = [] := by
              cases hx : pySplitlines t with
              | nil => rfl
              | cons a b => rw [hx] at h2; simp at h2
            have h4 : t = [] := pySplitlines_eq_nil.1 h3
            subst h4
            rw [h1, pySplitlines_cons_nil hc' (show pySplitlines ([] : List Char) = [] from rfl)]
            have h5 : replaceAll pat repl [c] = [c] := by
              rw [replaceAll_cons_neg repl hp hpre', replaceAll_nil]
            simp [h5]
          | cons hd' tl' =>
            have h2 := ihn t (by simp at hs; omega)
            rw [hsp] at h2
            obtain ⟨hd, tl, hut, hhd, htl⟩ :
                ∃ hd tl, pySplitlines t = hd :: tl ∧
                  replaceAll pat repl hd = hd' ∧ tl.map (replaceAll pat repl) = tl' := by
              cases hx : pySplitlines t with
              | nil => rw [hx] at h2; simp at h2
              | cons a b =>
                rw [hx] at h2
                simp only [List.map_cons] at h2
                injection h2.symm with ha hb
                exact ⟨a, b, rfl, ha, hb⟩
            rw [pySplitlines_cons_cons hc' hsp, pySplitlines_cons_cons hc' hut]
            simp only [List.map_cons, htl]
            have h6 : pat.isPrefixOf (c :: hd) = false := by
              by_contra h7
              have h7' : pat.isPrefixOf (c :: hd) = true := by
                cases h8 : pat.isPrefixOf (c :: hd) with
                | false => exact absurd h8 h7
                | true => rfl
              obtain ⟨r, hr'⟩ := pySplitlines_first hut
              have : pat.isPrefixOf (c :: t) = true := by
                rw [hr']
                have := isPrefixOf_append_right r h7'
                simpa using this
              rw [this] at hpre'
              exact Bool.true_eq_false ▸ hpre' ▸ rfl
            rw [replaceAll_cons_neg repl hp h6, hhd]

/- ---- lemmas about pyStrip ---- -/

theorem pyLstrip_append {a : List Char} {x₀ : Char} {xs : List Char}
    (hx : isWs x₀ = false) :
    pyLstrip (a ++ x₀ :: xs) = pyLstrip a ++ x₀ :: xs := by
  unfold pyLstrip
  rw [List.dropWhile_append]
  by_cases h : (a.dropWhile isWs).isEmpty = true
  · rw [if_pos h, List.isEmpty_iff.1 h]
    simp [List.dropWhile_cons, hx]
  · rw [if_neg h]

theorem pyRstrip_cons (c : Char) (v : List Char) :
    pyRstrip (c :: v) =
      if pyRstrip v = [] then (if isWs c then [] else [c]) else c :: pyRstrip v := by
  unfold pyRstrip
  rw [show (c :: v).reverse = v.reverse ++ [c] from by simp]
  rw [List.dropWhile_append]
  by_cases h : (v.reverse.dropWhile isWs).isEmpty = true
  · rw [if_pos h]
    have h2 : (v.reverse.dropWhile isWs).reverse = [] := by
      rw [List.isEmpty_iff.1 h]; rfl
    rw [if_pos h2]
    by_cases hc : isWs c
    · simp [List.dropWhile_cons, hc]
    · simp only [List.dropWhile_cons]
      rw [if_neg (by simp [hc])]
      simp [hc]
  · rw [if_neg h]
    have h2 : (v.reverse.dropWhile isWs).reverse ≠ [] := by
      intro h3
      apply h
      rw [List.isEmpty_iff]
      have := congrArg List.reverse h3
      simpa using this
    rw [if_neg h2]
    simp

theorem pyRstrip_ne_nil {x₀ : Char} {xs : List Char} (hx : isWs x₀ = false) :
    pyRstrip (x₀ :: xs) ≠ [] := by
  rw [pyRstrip_cons]
  by_cases h : pyRstrip xs = []
  · rw [if_pos h, if_neg (by simp [hx])]
    simp
  · rw [if_neg h]
    simp

theorem pyRstrip_append {u x : List Char} (h : pyRstrip x ≠ []) :
    pyRstrip (u ++ x) = u ++ pyRstrip x := by
  unfold pyRstrip at h ⊢
  rw [List.reverse_append, List.dropWhile_append]
  have h2 : (x.reverse.dropWhile isWs).isEmpty ≠ true := by
    intro h3
    apply h
    rw [List.isEmpty_iff.1 h3]
    rfl
  rw [if_neg h2]
  simp

/- ---- per-line invariance of the scan-relevant statuses under the
       placeholder substitutions ---- -/

/-- Both patterns and both replacement families of update_formula
    start with "ve" or "re"; this is what makes the line statuses
    (anchor / sha256) invariant under the substitutions. -/
def goodHead (x : List Char) : Bool :=
  "ve".data.isPrefixOf x || "re".data.isPrefixOf x

theorem goodHead_iff {x : List Char} :
    goodHead x = true ↔ ∃ t, x = 'v' :: 'e' :: t ∨ x = 'r' :: 'e' :: t := by
  unfold goodHead
  simp only [Bool.or_eq_true, isPrefixOf_iff]
  constructor
  · rintro (⟨t, rfl⟩ | ⟨t, rfl⟩)
    · exact ⟨t, Or.inl rfl⟩
    · exact ⟨t, Or.inr rfl⟩
  · rintro ⟨t, rfl | rfl⟩
    · exact Or.inl ⟨t, rfl⟩
    · exact Or.inr ⟨t, rfl⟩

theorem goodHead_ne_nil {x : List Char} (h : goodHead x = true) : x ≠ [] := by
  rcases goodHead_iff.1 h with ⟨t, rfl | rfl⟩ <;> simp

theorem goodHead_append {u : List Char} (h : goodHead u = true) (z : List Char) :
    goodHead (u ++ z) = true := by
  rcases goodHead_iff.1 h with ⟨t, rfl | rfl⟩
  · exact goodHead_iff.2 ⟨t ++ z, Or.inl (by simp)⟩
  · exact goodHead_iff.2 ⟨t ++ z, Or.inr (by simp)⟩

theorem pyRstrip_goodHead {x : List Char} (h : goodHead x = true) :
    goodHead (pyRstrip x) = true := by
  rcases goodHead_iff.1 h with ⟨t, rfl | rfl⟩
  all_goals {
    rw [pyRstrip_cons]
    rw [if_neg (pyRstrip_ne_nil (by decide))]
    rw [pyRstrip_cons]
    by_cases h2 : pyRstrip t = []
    · rw [if_pos h2, if_neg (by decide)]
      decide
    · rw [if_neg h2]
      exact goodHead_iff.2 ⟨pyRstrip t, by simp⟩
  }

theorem pyStrip_append_good {a x : List Char} (hx : goodHead x = true) :
    pyStrip (a ++ x) = pyLstrip a ++ pyRstrip x := by
  obtain ⟨x₀, xs, hx0, hxeq⟩ : ∃ x₀ xs, isWs x₀ = false ∧ x = x₀ :: xs := by
    rcases goodHead_iff.1 hx with ⟨t, rfl | rfl⟩
    · exact ⟨'v', 'e' :: t, by decide, rfl⟩
    · exact ⟨'r', 'e' :: t, by decide, rfl⟩
  subst hxeq
  unfold pyStrip
  rw [pyLstrip_append hx0]
  exact pyRstrip_append (pyRstrip_ne_nil hx0)

theorem goodHead_armAnchor_drop : ∀ k, goodHead (armAnchor.drop k) = false := by
  intro k
  match k with
  | 0 => decide
  | 1 => decide
  | 2 => decide
  | 3 => decide
  | 4 => decide
  | 5 => decide
  | 6 => decide
  | 7 => decide
  | 8 => decide
  | n + 9 =>
    rw [List.drop_eq_nil_of_le (by rw [show armAnchor.length = 9 from rfl]; omega)]
    decide

theorem goodHead_intelAnchor_drop : ∀ k, goodHead (intelAnchor.drop k) = false := by
  intro k
  match k with
  | 0 => decide
  | 1 => decide
  | 2 => decide
  | 3 => decide
  | 4 => decide
  | 5 => decide
  | 6 => decide
  | 7 => decide
  | 8 => decide
  | 9 => decide
  | 10 => decide
  | n + 11 =>
    rw [List.drop_eq_nil_of_le (by rw [show intelAnchor.length = 11 from rfl]; omega)]
    decide

theorem isArmLine_append_good {a x : List Char} (hx : goodHead x = true) :
    isArmLine (a ++ x) = false := by
  simp only [isArmLine, pyStrip_append_good hx, decide_eq_false_iff_not]
  intro heq
  have hw : pyRstrip x = armAnchor.drop (pyLstrip a).length := by
    have := congrArg (List.drop (pyLstrip a).length) heq
    rwa [List.drop_left] at this
  have hgood := pyRstrip_goodHead hx
  rw [hw, goodHead_armAnchor_drop] at hgood
  exact Bool.false_ne_true hgood

theorem isIntelLine_append_good {a x : List Char} (hx : goodHead x = true) :
    isIntelLine (a ++ x) = false := by
  simp only [isIntelLine, pyStrip_append_good hx, decide_eq_false_iff_not]
  intro heq
  have hw : pyRstrip x = intelAnchor.drop (pyLstrip a).length := by
    have := congrArg (List.drop (pyLstrip a).length) heq
    rwa [List.drop_left] at this
  have hgood := pyRstrip_goodHead hx
  rw [hw, goodHead_intelAnchor_drop] at hgood
  exact Bool.false_ne_true hgood

theorem isShaLine_append_good {a x : List Char} (hx : goodHead x = true) :
    isShaLine (a ++ x) = shaKey.isPrefixOf (pyLstrip a) := by
  unfold isShaLine
  rw [pyStrip_append_good hx]
  have hgood := pyRstrip_goodHead hx
  obtain ⟨w₀, ws, hw0, hweq⟩ : ∃ w₀ ws, (w₀ = 'v' ∨ w₀ = 'r') ∧
      pyRstrip x = w₀ :: ws := by
    rcases goodHead_iff.1 hgood with ⟨t, ht | ht⟩
    · exact ⟨'v', 'e' :: t, Or.inl rfl, ht⟩
    · exact ⟨'r', 'e' :: t, Or.inr rfl, ht⟩
  rw [hweq]
  apply isPrefixOf_append_of_head_notMem (by simp)
  intro c hc heq
  have h2 : w₀ = c := by simpa using heq
  subst h2
  have h3 : ∀ d ∈ shaKey, d ≠ 'v' ∧ d ≠ 'r' := by decide
  rcases hw0 with rfl | rfl
  · exact (h3 _ hc).1 rfl
  · exact (h3 _ hc).2 rfl

/-- Relation between a line and its image under one substitution:
    either unchanged, or both sides extend a common prefix with a
    good-headed tail. -/
def lineRel (u v : List Char) : Prop :=
  u = v ∨ ∃ a x y, u = a ++ x ∧ v = a ++ y ∧ goodHead x = true ∧ goodHead y = true

theorem replaceAll_lineRel {pat repl : List Char}
    (hgp : goodHead pat = true) (hgr : goodHead repl = true) :
    ∀ l, lineRel (replaceAll pat repl l) l := by
  have hp : pat ≠ [] := goodHead_ne_nil hgp
  suffices h : ∀ n l, l.length ≤ n → lineRel (replaceAll pat repl l) l by
    exact fun l => h l.length l le_rfl
  intro n
  induction n with
  | zero =>
    intro l hl
    rw [List.length_eq_zero.1 (Nat.le_zero.1 hl), replaceAll_nil]
    exact Or.inl rfl
  | succ n ihn =>
    intro l hl
    cases l with
    | nil => rw [replaceAll_nil]; exact Or.inl rfl
    | cons c rest =>
      by_cases hpre : pat.isPrefixOf (c :: rest) = true
      · rw [replaceAll_cons_pos repl hp hpre]
        refine Or.inr ⟨[], repl ++ replaceAll pat repl ((c :: rest).drop pat.length),
          c :: rest, by simp, by simp, goodHead_append hgr _, ?_⟩
        obtain ⟨u, hu⟩ := (isPrefixOf_iff _ _).1 hpre
        rw [hu]
        exact goodHead_append hgp u
      · rw [replaceAll_cons_neg repl hp (Bool.not_eq_true _ ▸ hpre)]
        rcases ihn rest (by simp at hl; omega) with heq | ⟨a, x, y, h1, h2, h3, h4⟩
        · exact Or.inl (by rw [heq])
        · exact Or.inr ⟨c :: a, x, y, by simp [h1], by simp [h2], h3, h4⟩

theorem lineRel_isShaLine {u v : List Char} (h : lineRel u v) :
    isShaLine u = isShaLine v := by
  rcases h with rfl | ⟨a, x, y, rfl, rfl, hx, hy⟩
  · rfl
  · rw [isShaLine_append_good hx, isShaLine_append_good hy]

theorem lineRel_isArmLine {u v : List Char} (h : lineRel u v) :
    isArmLine u = isArmLine v := by
  rcases h with rfl | ⟨a, x, y, rfl, rfl, hx, hy⟩
  · rfl
  · rw [isArmLine_append_good hx, isArmLine_append_good hy]

theorem lineRel_isIntelLine {u v : List Char} (h : lineRel u v) :
    isIntelLine u = isIntelLine v := by
  rcases h with rfl | ⟨a, x, y, rfl, rfl, hx, hy⟩
  · rfl
  · rw [isIntelLine_append_good hx, isIntelLine_append_good hy]

/- ---- the three substitutions, per line ---- -/

/-- The effect of the three placeholder substitutions on a single line
    (meaningful when the version string is newline-free). -/
def lineSub (version l : List Char) : List Char :=
  replaceAll pat3 (repl3 version)
    (replaceAll pat2 (repl2 version)
      (replaceAll pat1 (repl1 version) l))

theorem goodHead_pat1 : goodHead pat1 = true := by decide

theorem goodHead_pat2 : goodHead pat2 = true := by decide

theorem goodHead_pat3 : goodHead pat3 = true := by decide

theorem goodHead_repl1 (version : List Char) : goodHead (repl1 version) = true := by
  unfold repl1
  have h : goodHead "version \"".data = true := by decide
  exact goodHead_append h _

theorem goodHead_repl2 (version : List Char) : goodHead (repl2 version) = true := by
  unfold repl2
  have h : goodHead "releases/download/".data = true := by decide
  exact goodHead_append h _

theorem goodHead_repl3 (version : List Char) : goodHead (repl3 version) = true := by
  unfold repl3
  have h : goodHead "releases/download/".data = true := by decide
  exact goodHead_append h _

theorem lineSub_isShaLine (version l : List Char) :
    isShaLine (lineSub version l) = isShaLine l := by
  unfold lineSub
  rw [lineRel_isShaLine (replaceAll_lineRel goodHead_pat3 (goodHead_repl3 version) _),
    lineRel_isShaLine (replaceAll_lineRel goodHead_pat2 (goodHead_repl2 version) _),
    lineRel_isShaLine (replaceAll_lineRel goodHead_pat1 (goodHead_repl1 version) _)]

theorem lineSub_isArmLine (version l : List Char) :
    isArmLine (lineSub version l) = isArmLine l := by
  unfold lineSub
  rw [lineRel_isArmLine (replaceAll_lineRel goodHead_pat3 (goodHead_repl3 version) _),
    lineRel_isArmLine (replaceAll_lineRel goodHead_pat2 (goodHead_repl2 version) _),
    lineRel_isArmLine (replaceAll_lineRel goodHead_pat1 (goodHead_repl1 version) _)]

theorem lineSub_isIntelLine (version l : List Char) :
    isIntelLine (lineSub version l) = isIntelLine l := by
  unfold lineSub
  rw [lineRel_isIntelLine (replaceAll_lineRel goodHead_pat3 (goodHead_repl3 version) _),
    lineRel_isIntelLine (replaceAll_lineRel goodHead_pat2 (goodHead_repl2 version) _),
    lineRel_isIntelLine (replaceAll_lineRel goodHead_pat1 (goodHead_repl1 version) _)]

/-- The interpolated version field is boundary-free when the version
    string is. -/
theorem repl1_noLB {version : List Char} (hv : ∀ c ∈ version, isLB c = false) :
    ∀ c ∈ repl1 version, isLB c = false := by
  have hfix1 : ∀ d ∈ "version \"".data, isLB d = false := by decide
  have hfix2 : ∀ d ∈ "\"".data, isLB d = false := by decide
  intro c hc
  unfold repl1 at hc
  simp only [List.append_assoc, List.mem_append] at hc
  rcases hc with hc' | hc' | hc'
  · exact hfix1 c hc'
  · exact hv c (List.Sublist.mem hc' (List.dropWhile_sublist _))
  · exact hfix2 c hc'

theorem repl2_noLB {version : List Char} (hv : ∀ c ∈ version, isLB c = false) :
    ∀ c ∈ repl2 version, isLB c = false := by
  have hfix3 : ∀ d ∈ "releases/download/".data, isLB d = false := by decide
  have hfix4 : ∀ d ∈ "/velar-darwin-arm64-".data, isLB d = false := by decide
  have hfix5 : ∀ d ∈ ".tar.gz".data, isLB d = false := by decide
  intro c hc
  unfold repl2 at hc
  simp only [List.append_assoc, List.mem_append] at hc
  rcases hc with hc' | hc' | hc' | hc' | hc'
  · exact hfix3 c hc'
  · exact hv c hc'
  · exact hfix4 c hc'
  · exact hv c hc'
  · exact hfix5 c hc'

theorem repl3_noLB {version : List Char} (hv : ∀ c ∈ version, isLB c = false) :
    ∀ c ∈ repl3 version, isLB c = false := by
  have hfix3 : ∀ d ∈ "releases/download/".data, isLB d = false := by decide
  have hfix5 : ∀ d ∈ ".tar.gz".data, isLB d = false := by decide
  have hfix6 : ∀ d ∈ "/velar-darwin-x86_64-".data, isLB d = false := by decide
  intro c hc
  unfold repl3 at hc
  simp only [List.append_assoc, List.mem_append] at hc
  rcases hc with hc' | hc' | hc' | hc' | hc'
  · exact hfix3 c hc'
  · exact hv c hc'
  · exact hfix6 c hc'
  · exact hv c hc'
  · exact hfix5 c hc'

/-- For a version string free of line-boundary characters the
    substitution phase maps the line list of the file elementwise. -/
theorem phase1_lines {version : List Char} (hv : ∀ c ∈ version, isLB c = false)
    (text : List Char) :
    pySplitlines (phase1 version text) = (pySplitlines text).map (lineSub version) := by
  have hr1nl : ∀ c ∈ repl1 version, isLB c = false := repl1_noLB hv
  have hr2nl : ∀ c ∈ repl2 version, isLB c = false := repl2_noLB hv
  have hr3nl : ∀ c ∈ repl3 version, isLB c = false := repl3_noLB hv
  unfold phase1
  rw [pySplitlines_replaceAll (goodHead_ne_nil goodHead_pat3)
      (goodHead_ne_nil (goodHead_repl3 version)) (by decide) hr3nl,
    pySplitlines_replaceAll (goodHead_ne_nil goodHead_pat2)
      (goodHead_ne_nil (goodHead_repl2 version)) (by decide) hr2nl,
    pySplitlines_replaceAll (goodHead_ne_nil goodHead_pat1)
      (goodHead_ne_nil (goodHead_repl1 version)) (by decide) hr1nl,
    List.map_map, List.map_map]
  rfl

/- ---- status facts about anchor and sha256 lines ---- -/

theorem isArmLine_not_intel {l : List Char} (h : isArmLine l = true) :
    isIntelLine l = false := by
  have h1 : pyStrip l = armAnchor := of_decide_eq_true h
  simp only [isIntelLine, decide_eq_false_iff_not]
  rw [h1]
  decide

theorem isIntelLine_not_arm {l : List Char} (h : isIntelLine l = true) :
    isArmLine l = false := by
  have h1 : pyStrip l = intelAnchor := of_decide_eq_true h
  simp only [isArmLine, decide_eq_false_iff_not]
  rw [h1]
  decide

theorem isShaLine_strip {l : List Char} (h : isShaLine l = true) :
    ∃ t, pyStrip l = shaKey ++ t := by
  unfold isShaLine at h
  exact (isPrefixOf_iff _ _).1 h

theorem isShaLine_not_arm {l : List Char} (h : isShaLine l = true) :
    isArmLine l = false := by
  obtain ⟨t, ht⟩ := isShaLine_strip h
  simp only [isArmLine, decide_eq_false_iff_not]
  rw [ht]
  rw [show shaKey ++ t = 's' :: ("ha256 ".data ++ t) from rfl,
    show armAnchor = 'o' :: "n_arm do".data from rfl]
  intro heq
  injection heq with h1 _
  exact absurd h1 (by decide)

theorem isShaLine_not_intel {l : List Char} (h : isShaLine l = true) :
    isIntelLine l = false := by
  obtain ⟨t, ht⟩ := isShaLine_strip h
  simp only [isIntelLine, decide_eq_false_iff_not]
  rw [ht]
  rw [show shaKey ++ t = 's' :: ("ha256 ".data ++ t) from rfl,
    show intelAnchor = 'o' :: "n_intel do".data from rfl]
  intro heq
  injection heq with h1 _
  exact absurd h1 (by decide)

theorem pyStrip_shaLineFor (sha : List Char) :
    pyStrip (shaLineFor sha) = "sha256 \"".data ++ (sha ++ "\"".data) := by
  have h1 : shaLineFor sha = "      sha256 \"".data ++ (sha ++ "\"".data) := rfl
  unfold pyStrip
  rw [h1]
  have h2 : pyLstrip ("      sha256 \"".data ++ (sha ++ "\"".data)) =
      "sha256 \"".data ++ (sha ++ "\"".data) := by
    unfold pyLstrip
    rw [List.dropWhile_append]
    rw [if_neg (by decide)]
    have h3 : List.dropWhile isWs "      sha256 \"".data = ("sha256 \"".data : List Char) := by
      decide
    rw [h3]
  rw [h2]
  rw [show "sha256 \"".data ++ (sha ++ "\"".data) =
    ("sha256 \"".data ++ sha) ++ ['"'] from by simp]
  rw [pyRstrip_append (by decide)]
  rfl

theorem isShaLine_shaLineFor (sha : List Char) : isShaLine (shaLineFor sha) = true := by
  unfold isShaLine
  rw [pyStrip_shaLineFor]
  rw [show ("sha256 \"".data : List Char) = shaKey ++ ['"'] from rfl]
  rw [List.append_assoc]
  exact isPrefixOf_self shaKey _

theorem isArmLine_shaLineFor (sha : List Char) : isArmLine (shaLineFor sha) = false := by
  apply isShaLine_not_arm
  exact isShaLine_shaLineFor sha

theorem isIntelLine_shaLineFor (sha : List Char) : isIntelLine (shaLineFor sha) = false := by
  apply isShaLine_not_intel
  exact isShaLine_shaLineFor sha

/- ---- getD and set ---- -/

theorem getD_set_eq {ls : List (List Char)} {j : Nat} {v : List Char}
    (h : j < ls.length) : (ls.set j v).getD j [] = v := by
  rw [List.getD_eq_getElem?_getD, List.getElem?_set_self h]
  rfl

theorem getD_set_ne {ls : List (List Char)} {i j : Nat} {v : List Char}
    (h : i ≠ j) : (ls.set i v).getD j [] = ls.getD j [] := by
  rw [List.getD_eq_getElem?_getD, List.getElem?_set_ne h, ← List.getD_eq_getElem?_getD]

/- ---- find? on index ranges ---- -/

theorem find?_congr {p q : Nat → Bool} :
    ∀ (l : List Nat), (∀ x ∈ l, p x = q x) → l.find? p = l.find? q := by
  intro l
  induction l with
  | nil => intro _; rfl
  | cons x xs ih =>
    intro h
    rw [List.find?_cons, List.find?_cons, h x (by simp)]
    cases q x with
    | true => rfl
    | false => exact ih (fun y hy => h y (by simp [hy]))

theorem find?_range'_first {p : Nat → Bool} :
    ∀ (n s j : Nat), (List.range' s n).find? p = some j →
      s ≤ j ∧ j < s + n ∧ p j = true ∧ ∀ k, s ≤ k → k < j → p k = false := by
  intro n
  induction n with
  | zero => intro s j h; simp [List.range'] at h
  | succ n ih =>
    intro s j h
    rw [List.range'_succ, List.find?_cons] at h
    cases hps : p s with
    | true =>
      rw [hps] at h
      simp only [Option.some.injEq] at h
      subst h
      exact ⟨le_rfl, by omega, hps, fun k hk1 hk2 => absurd hk1 (by omega)⟩
    | false =>
      rw [hps] at h
      obtain ⟨h1, h2, h3, h4⟩ := ih (s + 1) j h
      refine ⟨by omega, by omega, h3, ?_⟩
      intro k hk1 hk2
      rcases Nat.eq_or_lt_of_le hk1 with rfl | hk1'
      · exact hps
      · exact h4 k (by omega) hk2

theorem findShaIdx_some {ls : List (List Char)} {i j : Nat}
    (h : findShaIdx ls i = some j) :
    i + 1 ≤ j ∧ j < min (i + 8) ls.length ∧ isShaLine (ls.getD j []) = true ∧
      ∀ k, i < k → k < j → isShaLine (ls.getD k []) = false := by
  unfold findShaIdx at h
  obtain ⟨h1, h2, h3, h4⟩ := find?_range'_first _ _ _ h
  have hn : i + 1 ≤ min (i + 8) ls.length := by
    by_contra hcon
    have : min (i + 8) ls.length - (i + 1) = 0 := by omega
    rw [this] at h2
    omega
  exact ⟨h1, by omega, h3, fun k hk1 hk2 => h4 k (by omega) hk2⟩

theorem findShaIdx_isSome_iff {ls : List (List Char)} {i : Nat} :
    (findShaIdx ls i).isSome = true ↔
      ∃ j, i + 1 ≤ j ∧ j < min (i + 8) ls.length ∧ isShaLine (ls.getD j []) = true := by
  unfold findShaIdx
  rw [List.find?_isSome]
  constructor
  · rintro ⟨j, hj, hp⟩
    rw [List.mem_range'_1] at hj
    exact ⟨j, hj.1, by omega, hp⟩
  · rintro ⟨j, h1, h2, h3⟩
    exact ⟨j, List.mem_range'_1.2 ⟨h1, by omega⟩, h3⟩

/- ---- statusEq: two line lists agreeing on all scan-relevant
       statuses ---- -/

def statusEq (cur ls : List (List Char)) : Prop :=
  cur.length = ls.length ∧
  ∀ k, isShaLine (cur.getD k []) = isShaLine (ls.getD k []) ∧
       isArmLine (cur.getD k []) = isArmLine (ls.getD k []) ∧
       isIntelLine (cur.getD k []) = isIntelLine (ls.getD k [])

theorem statusEq_refl (ls : List (List Char)) : statusEq ls ls :=
  ⟨rfl, fun _ => ⟨rfl, rfl, rfl⟩⟩

theorem findShaIdx_congr {cur ls : List (List Char)} (h : statusEq cur ls) (i : Nat) :
    findShaIdx cur i = findShaIdx ls i := by
  unfold findShaIdx
  rw [h.1]
  exact find?_congr _ (fun j _ => (h.2 j).1)

theorem statusEq_set {cur ls : List (List Char)} (h : statusEq cur ls) {j : Nat}
    (hj : isShaLine (ls.getD j []) = true) (sha : List Char) :
    statusEq (cur.set j (shaLineFor sha)) ls := by
  refine ⟨by rw [List.length_set]; exact h.1, ?_⟩
  intro k
  by_cases hk : j = k
  · subst hk
    by_cases hlt : j < cur.length
    · rw [getD_set_eq hlt]
      refine ⟨?_, ?_, ?_⟩
      · rw [isShaLine_shaLineFor, hj]
      · rw [isArmLine_shaLineFor, (isShaLine_not_arm hj)]
      · rw [isIntelLine_shaLineFor, (isShaLine_not_intel hj)]
    · have e1 : (cur.set j (shaLineFor sha)).getD j [] = [] := by
        rw [List.getD_eq_getElem?_getD, List.getElem?_eq_none (by rw [List.length_set]; omega)]
        rfl
      have e2 : cur.getD j [] = [] := by
        rw [List.getD_eq_getElem?_getD, List.getElem?_eq_none (by omega)]
        rfl
      have h4 := h.2 j
      rw [e2] at h4
      rw [e1]
      exact h4
  · rw [getD_set_ne hk]
    exact h.2 k

/- ---- evaluation of one scan step ---- -/

theorem scanStep_arm_some {shaA shaI : List Char} (st : ScanState) {i j : Nat}
    (h1 : isArmLine (st.lines.getD i []) = true) (h2 : findShaIdx st.lines i = some j) :
    scanStep shaA shaI st i =
      { lines := st.lines.set j (shaLineFor shaA), arm_set := true,
        intel_set := st.intel_set } := by
  have h3 : isIntelLine (st.lines.getD i []) = false := isArmLine_not_intel h1
  unfold scanStep scanArm scanIntel
  rw [if_pos h1, h2, if_neg (ne_true_of_eq_false h3)]

theorem scanStep_arm_none {shaA shaI : List Char} (st : ScanState) {i : Nat}
    (h1 : isArmLine (st.lines.getD i []) = true) (h2 : findShaIdx st.lines i = none) :
    scanStep shaA shaI st i = st := by
  have h3 : isIntelLine (st.lines.getD i []) = false := isArmLine_not_intel h1
  unfold scanStep scanArm scanIntel
  rw [if_pos h1, h2, if_neg (ne_true_of_eq_false h3)]

theorem scanStep_intel_some {shaA shaI : List Char} (st : ScanState) {i j : Nat}
    (h1 : isArmLine (st.lines.getD i []) = false)
    (h2 : isIntelLine (st.lines.getD i []) = true)
    (h3 : findShaIdx st.lines i = some j) :
    scanStep shaA shaI st i =
      { lines := st.lines.set j (shaLineFor shaI), arm_set := st.arm_set,
        intel_set := true } := by
  unfold scanStep scanArm scanIntel
  rw [if_neg (ne_true_of_eq_false h1),
    if_pos h2, h3]

theorem scanStep_intel_none {shaA shaI : List Char} (st : ScanState) {i : Nat}
    (h1 : isArmLine (st.lines.getD i []) = false)
    (h2 : isIntelLine (st.lines.getD i []) = true)
    (h3 : findShaIdx st.lines i = none) :
    scanStep shaA shaI st i = st := by
  unfold scanStep scanArm scanIntel
  rw [if_neg (ne_true_of_eq_false h1),
    if_pos h2, h3]

theorem scanStep_skip {shaA shaI : List Char} (st : ScanState) {i : Nat}
    (h1 : isArmLine (st.lines.getD i []) = false)
    (h2 : isIntelLine (st.lines.getD i []) = false) :
    scanStep shaA shaI st i = st := by
  unfold scanStep scanArm scanIntel
  rw [if_neg (ne_true_of_eq_false h1),
    if_neg (ne_true_of_eq_false h2)]

/- ---- evaluation of the static write list and the hit flags ---- -/

theorem applyWrites_nil (cur : List (List Char)) : applyWrites cur [] = cur := rfl

theorem applyWrites_cons (cur : List (List Char)) (p : Nat × List Char)
    (ws : List (Nat × List Char)) :
    applyWrites cur (p :: ws) = applyWrites (cur.set p.1 p.2) ws := rfl

theorem writesOn_cons_arm_some {ls : List (List Char)} {i j : Nat}
    (shaA shaI : List Char) (rest : List Nat)
    (hA : isArmLine (ls.getD i []) = true) (hF : findShaIdx ls i = some j) :
    writesOn ls shaA shaI (i :: rest) =
      (j, shaLineFor shaA) :: writesOn ls shaA shaI rest := by
  have hA' : isArmLine (ls[i]?.getD []) = true := by
    rw [← List.getD_eq_getElem?_getD]; exact hA
  unfold writesOn
  rw [List.filterMap_cons]
  simp [hA', hF]

theorem writesOn_cons_arm_none {ls : List (List Char)} {i : Nat}
    (shaA shaI : List Char) (rest : List Nat)
    (hA : isArmLine (ls.getD i []) = true) (hF : findShaIdx ls i = none) :
    writesOn ls shaA shaI (i :: rest) = writesOn ls shaA shaI rest := by
  have hA' : isArmLine (ls[i]?.getD []) = true := by
    rw [← List.getD_eq_getElem?_getD]; exact hA
  unfold writesOn
  rw [List.filterMap_cons]
  simp [hA', hF]

theorem writesOn_cons_intel_some {ls : List (List Char)} {i j : Nat}
    (shaA shaI : List Char) (rest : List Nat)
    (hA : isArmLine (ls.getD i []) = false)
    (hI : isIntelLine (ls.getD i []) = true) (hF : findShaIdx ls i = some j) :
    writesOn ls shaA shaI (i :: rest) =
      (j, shaLineFor shaI) :: writesOn ls shaA shaI rest := by
  have hA' : isArmLine (ls[i]?.getD []) = false := by
    rw [← List.getD_eq_getElem?_getD]; exact hA
  have hI' : isIntelLine (ls[i]?.getD []) = true := by
    rw [← List.getD_eq_getElem?_getD]; exact hI
  unfold writesOn
  rw [List.filterMap_cons]
  simp [hA', hI', hF]

theorem writesOn_cons_intel_none {ls : List (List Char)} {i : Nat}
    (shaA shaI : List Char) (rest : List Nat)
    (hA : isArmLine (ls.getD i []) = false)
    (hI : isIntelLine (ls.getD i []) = true) (hF : findShaIdx ls i = none) :
    writesOn ls shaA shaI (i :: rest) = writesOn ls shaA shaI rest := by
  have hA' : isArmLine (ls[i]?.getD []) = false := by
    rw [← List.getD_eq_getElem?_getD]; exact hA
  have hI' : isIntelLine (ls[i]?.getD []) = true := by
    rw [← List.getD_eq_getElem?_getD]; exact hI
  unfold writesOn
  rw [List.filterMap_cons]
  simp [hA', hI', hF]

theorem writesOn_cons_skip {ls : List (List Char)} {i : Nat}
    (shaA shaI : List Char) (rest : List Nat)
    (hA : isArmLine (ls.getD i []) = false)
    (hI : isIntelLine (ls.getD i []) = false) :
    writesOn ls shaA shaI (i :: rest) = writesOn ls shaA shaI rest := by
  have hA' : isArmLine (ls[i]?.getD []) = false := by
    rw [← List.getD_eq_getElem?_getD]; exact hA
  have hI' : isIntelLine (ls[i]?.getD []) = false := by
    rw [← List.getD_eq_getElem?_getD]; exact hI
  unfold writesOn
  rw [List.filterMap_cons]
  simp [hA', hI']

theorem armHit_cons (ls : List (List Char)) (i : Nat) (rest : List Nat) :
    armHit ls (i :: rest) =
      ((isArmLine (ls.getD i []) && (findShaIdx ls i).isSome) || armHit ls rest) := by
  unfold armHit
  rw [List.any_cons]

theorem intelHit_cons (ls : List (List Char)) (i : Nat) (rest : List Nat) :
    intelHit ls (i :: rest) =
      ((isIntelLine (ls.getD i []) && (findShaIdx ls i).isSome) || intelHit ls rest) := by
  unfold intelHit
  rw [List.any_cons]

/- ---- the scan computes the static writes and hit flags ---- -/

theorem scanIdx_spec (shaA shaI : List Char) (ls : List (List Char)) :
    ∀ (idc : List Nat) (cur : List (List Char)) (a b : Bool), statusEq cur ls →
      scanIdx shaA shaI idc ⟨cur, a, b⟩ =
        ⟨applyWrites cur (writesOn ls shaA shaI idc),
          a || armHit ls idc, b || intelHit ls idc⟩ := by
  intro idc
  induction idc with
  | nil =>
    intro cur a b _
    show ScanState.mk cur a b = _
    simp [applyWrites_nil, writesOn, armHit, intelHit]
  | cons i rest ih =>
    intro cur a b h
    show scanIdx shaA shaI rest (scanStep shaA shaI ⟨cur, a, b⟩ i) = _
    have harm : isArmLine (cur.getD i []) = isArmLine (ls.getD i []) := (h.2 i).2.1
    have hintel : isIntelLine (cur.getD i []) = isIntelLine (ls.getD i []) := (h.2 i).2.2
    have hfs : findShaIdx cur i = findShaIdx ls i := findShaIdx_congr h i
    by_cases hA : isArmLine (ls.getD i []) = true
    · cases hF : findShaIdx ls i with
      | some j =>
        rw [scanStep_arm_some ⟨cur, a, b⟩ (by rw [show ScanState.lines ⟨cur, a, b⟩ = cur from rfl, harm]; exact hA)
          (by rw [show ScanState.lines ⟨cur, a, b⟩ = cur from rfl, hfs]; exact hF)]
        obtain ⟨_, _, hj3, _⟩ := findShaIdx_some hF
        rw [ih (cur.set j (shaLineFor shaA)) true b (statusEq_set h hj3 shaA)]
        rw [writesOn_cons_arm_some shaA shaI rest hA hF, applyWrites_cons]
        rw [armHit_cons, intelHit_cons, hA, hF, isArmLine_not_intel hA]
        simp
      | none =>
        rw [scanStep_arm_none ⟨cur, a, b⟩ (by rw [show ScanState.lines ⟨cur, a, b⟩ = cur from rfl, harm]; exact hA)
          (by rw [show ScanState.lines ⟨cur, a, b⟩ = cur from rfl, hfs]; exact hF)]
        rw [ih cur a b h]
        rw [writesOn_cons_arm_none shaA shaI rest hA hF]
        rw [armHit_cons, intelHit_cons, hA, hF, isArmLine_not_intel hA]
        simp
    · have hA' : isArmLine (ls.getD i []) = false := by
        cases hx : isArmLine (ls.getD i []) with
        | true => exact absurd hx hA
        | false => rfl
      by_cases hI : isIntelLine (ls.getD i []) = true
      · cases hF : findShaIdx ls i with
        | some j =>
          rw [scanStep_intel_some ⟨cur, a, b⟩
            (by rw [show ScanState.lines ⟨cur, a, b⟩ = cur from rfl, harm]; exact hA')
            (by rw [show ScanState.lines ⟨cur, a, b⟩ = cur from rfl, hintel]; exact hI)
            (by rw [show ScanState.lines ⟨cur, a, b⟩ = cur from rfl, hfs]; exact hF)]
          obtain ⟨_, _, hj3, _⟩ := findShaIdx_some hF
          rw [ih (cur.set j (shaLineFor shaI)) a true (statusEq_set h hj3 shaI)]
          rw [writesOn_cons_intel_some shaA shaI rest hA' hI hF, applyWrites_cons]
          rw [armHit_cons, intelHit_cons, hA', hI, hF]
          simp
        | none =>
          rw [scanStep_intel_none ⟨cur, a, b⟩
            (by rw [show ScanState.lines ⟨cur, a, b⟩ = cur from rfl, harm]; exact hA')
            (by rw [show ScanState.lines ⟨cur, a, b⟩ = cur from rfl, hintel]; exact hI)
            (by rw [show ScanState.lines ⟨cur, a, b⟩ = cur from rfl, hfs]; exact hF)]
          rw [ih cur a b h]
          rw [writesOn_cons_intel_none shaA shaI rest hA' hI hF]
          rw [armHit_cons, intelHit_cons, hA', hI, hF]
          simp
      · have hI' : isIntelLine (ls.getD i []) = false := by
          cases hx : isIntelLine (ls.getD i []) with
          | true => exact absurd hx hI
          | false => rfl
        rw [scanStep_skip ⟨cur, a, b⟩
          (by rw [show ScanState.lines ⟨cur, a, b⟩ = cur from rfl, harm]; exact hA')
          (by rw [show ScanState.lines ⟨cur, a, b⟩ = cur from rfl, hintel]; exact hI')]
        rw [ih cur a b h]
        rw [writesOn_cons_skip shaA shaI rest hA' hI']
        rw [armHit_cons, intelHit_cons, hA', hI']
        simp

/-- The scan equals the static description: apply, in file order, one
    write per anchor line (the first sha256 line in the anchor's 7-line
    window is set to the architecture-appropriate assignment), and set
    each flag iff some anchor of its kind found a sha256 line. -/
theorem scanLines_spec (shaA shaI : List Char) (ls : List (List Char)) :
    scanLines shaA shaI ls =
      ⟨applyWrites ls (writesOn ls shaA shaI (List.range ls.length)),
        armHit ls (List.range ls.length), intelHit ls (List.range ls.length)⟩ := by
  unfold scanLines
  rw [scanIdx_spec shaA shaI ls (List.range ls.length) ls false false (statusEq_refl ls)]
  simp

/- ---- the final value of each line after the writes ---- -/

/-- The last write applied to position j. -/
def lastWrite (ws : List (Nat × List Char)) (j : Nat) : Option (List Char) :=
  ((ws.filter (fun p => p.1 == j)).getLast?).map (fun p => p.2)

theorem getLast?_cons_of_ne_nil {α : Type} (x : α) {l : List α} (h : l ≠ []) :
    (x :: l).getLast? = l.getLast? := by
  cases l with
  | nil => exact absurd rfl h
  | cons y t => exact List.getLast?_cons_cons

theorem applyWrites_length :
    ∀ (ws : List (Nat × List Char)) (cur : List (List Char)),
      (applyWrites cur ws).length = cur.length := by
  intro ws
  induction ws with
  | nil => intro cur; rfl
  | cons p ws' ih =>
    intro cur
    rw [applyWrites_cons, ih, List.length_set]

theorem applyWrites_getD :
    ∀ (ws : List (Nat × List Char)) (cur : List (List Char)) (j : Nat),
      (∀ p ∈ ws, p.1 < cur.length) →
      (applyWrites cur ws).getD j [] = (lastWrite ws j).getD (cur.getD j []) := by
  intro ws
  induction ws with
  | nil => intro cur j _; rfl
  | cons p ws' ih =>
    intro cur j hb
    rw [applyWrites_cons,
      ih (cur.set p.1 p.2) j
        (fun q hq => by rw [List.length_set]; exact hb q (by simp [hq]))]
    by_cases hpj : p.1 = j
    · by_cases hws : ws'.filter (fun q => q.1 == j) = []
      · have hlw : lastWrite ws' j = none := by
          unfold lastWrite
          rw [hws]
          rfl
        have e : lastWrite (p :: ws') j = some p.2 := by
          unfold lastWrite
          rw [List.filter_cons, if_pos (by simp [hpj]), hws]
          rfl
        rw [e, hlw]
        have hj : j < cur.length := by
          rw [← hpj]
          exact hb p (by simp)
        show (cur.set p.1 p.2).getD j [] = p.2
        rw [hpj]
        exact getD_set_eq hj
      · obtain ⟨v, hv⟩ : ∃ v, (ws'.filter (fun q => q.1 == j)).getLast? = some v := by
          cases hx : (ws'.filter (fun q => q.1 == j)).getLast? with
          | none => exact absurd (List.getLast?_eq_none_iff.1 hx) hws
          | some v => exact ⟨v, rfl⟩
        have hlw : lastWrite ws' j = some v.2 := by
          unfold lastWrite
          rw [hv]
          rfl
        have e : lastWrite (p :: ws') j = lastWrite ws' j := by
          unfold lastWrite
          rw [List.filter_cons, if_pos (by simp [hpj]), getLast?_cons_of_ne_nil p hws]
        rw [e, hlw]
        rfl
    · have e : lastWrite (p :: ws') j = lastWrite ws' j := by
        unfold lastWrite
        rw [List.filter_cons, if_neg (by simp [hpj])]
      rw [e, getD_set_ne hpj]

theorem applyWrites_mem :
    ∀ (ws : List (Nat × List Char)) (cur : List (List Char)) (l : List Char),
      l ∈ applyWrites cur ws → l ∈ cur ∨ ∃ p ∈ ws, l = p.2 := by
  intro ws
  induction ws with
  | nil => intro cur l h; exact Or.inl h
  | cons p ws' ih =>
    intro cur l h
    rw [applyWrites_cons] at h
    rcases ih (cur.set p.1 p.2) l h with h' | ⟨q, hq, hql⟩
    · rcases List.mem_or_eq_of_mem_set h' with h'' | rfl
      · exact Or.inl h''
      · exact Or.inr ⟨p, by simp, rfl⟩
    · exact Or.inr ⟨q, by simp [hq], hql⟩

theorem lastWrite_mem {ws : List (Nat × List Char)} {j : Nat} {v : List Char}
    (h : lastWrite ws j = some v) : ∃ p ∈ ws, p.1 = j ∧ p.2 = v := by
  unfold lastWrite at h
  obtain ⟨q, hq⟩ : ∃ q, (ws.filter (fun p => p.1 == j)).getLast? = some q := by
    cases hx : (ws.filter (fun p => p.1 == j)).getLast? with
    | none => rw [hx] at h; simp at h
    | some q => exact ⟨q, rfl⟩
  rw [hq] at h
  simp only [Option.map_some', Option.some.injEq] at h
  have hmem := List.mem_of_mem_getLast? hq
  rw [List.mem_filter] at hmem
  exact ⟨q, hmem.1, by simpa using hmem.2, h⟩

/-- If no write touches position j, its line is unchanged. -/
theorem lastWrite_eq_none {ws : List (Nat × List Char)} {j : Nat}
    (h : ∀ p ∈ ws, p.1 ≠ j) : lastWrite ws j = none := by
  unfold lastWrite
  have : ws.filter (fun p => p.1 == j) = [] := by
    rw [List.filter_eq_nil]
    intro p hp
    simp [h p hp]
  rw [this]
  rfl

/- ---- hit flags as existentials ---- -/

theorem any_congr {p q : Nat → Bool} :
    ∀ (l : List Nat), (∀ x ∈ l, p x = q x) → l.any p = l.any q := by
  intro l
  induction l with
  | nil => intro _; rfl
  | cons x xs ih =>
    intro h
    rw [List.any_cons, List.any_cons, h x (by simp), ih (fun y hy => h y (by simp [hy]))]

theorem armHit_iff (ls : List (List Char)) :
    armHit ls (List.range ls.length) = true ↔
      ∃ i, i < ls.length ∧ isArmLine (ls.getD i []) = true ∧
        (findShaIdx ls i).isSome = true := by
  unfold armHit
  rw [List.any_eq_true]
  constructor
  · rintro ⟨i, hi, hp⟩
    rw [Bool.and_eq_true] at hp
    exact ⟨i, List.mem_range.1 hi, hp.1, hp.2⟩
  · rintro ⟨i, h1, h2, h3⟩
    exact ⟨i, List.mem_range.2 h1, by rw [Bool.and_eq_true]; exact ⟨h2, h3⟩⟩

theorem intelHit_iff (ls : List (List Char)) :
    intelHit ls (List.range ls.length) = true ↔
      ∃ i, i < ls.length ∧ isIntelLine (ls.getD i []) = true ∧
        (findShaIdx ls i).isSome = true := by
  unfold intelHit
  rw [List.any_eq_true]
  constructor
  · rintro ⟨i, hi, hp⟩
    rw [Bool.and_eq_true] at hp
    exact ⟨i, List.mem_range.1 hi, hp.1, hp.2⟩
  · rintro ⟨i, h1, h2, h3⟩
    exact ⟨i, List.mem_range.2 h1, by rw [Bool.and_eq_true]; exact ⟨h2, h3⟩⟩

theorem armHit_congr {cur ls : List (List Char)} (h : statusEq cur ls) :
    armHit cur (List.range cur.length) = armHit ls (List.range ls.length) := by
  unfold armHit
  rw [h.1]
  exact any_congr _ (fun i _ => by
    rw [(h.2 i).2.1, findShaIdx_congr h i])

theorem intelHit_congr {cur ls : List (List Char)} (h : statusEq cur ls) :
    intelHit cur (List.range cur.length) = intelHit ls (List.range ls.length) := by
  unfold intelHit
  rw [h.1]
  exact any_congr _ (fun i _ => by
    rw [(h.2 i).2.2, findShaIdx_congr h i])

/- ---- the substituted line list has the statuses of the original ---- -/

theorem lineSub_nil (version : List Char) : lineSub version [] = [] := by
  unfold lineSub
  rw [replaceAll_nil, replaceAll_nil, replaceAll_nil]

theorem statusEq_map_lineSub (version : List Char) (ls : List (List Char)) :
    statusEq (ls.map (lineSub version)) ls := by
  refine ⟨by simp, ?_⟩
  intro k
  have h1 : (ls.map (lineSub version)).getD k [] = lineSub version (ls.getD k []) := by
    rw [List.getD_eq_getElem?_getD, List.getElem?_map, List.getD_eq_getElem?_getD]
    cases hx : ls[k]? with
    | none => simp [lineSub_nil]
    | some x => rfl
  rw [h1]
  exact ⟨lineSub_isShaLine version _, lineSub_isArmLine version _,
    lineSub_isIntelLine version _⟩

/- ---- glue: update_formula through the scan description ---- -/

theorem scanLines_arm_set (shaA shaI : List Char) (ls : List (List Char)) :
    (scanLines shaA shaI ls).arm_set = armHit ls (List.range ls.length) := by
  rw [scanLines_spec]

theorem scanLines_intel_set (shaA shaI : List Char) (ls : List (List Char)) :
    (scanLines shaA shaI ls).intel_set = intelHit ls (List.range ls.length) := by
  rw [scanLines_spec]

theorem scanLines_lines (shaA shaI : List Char) (ls : List (List Char)) :
    (scanLines shaA shaI ls).lines =
      applyWrites ls (writesOn ls shaA shaI (List.range ls.length)) := by
  rw [scanLines_spec]

theorem update_formula_ok {path version shaA shaI text : List Char}
    (h1 : armHit (pySplitlines (phase1 version text))
      (List.range (pySplitlines (phase1 version text)).length) = true)
    (h2 : intelHit (pySplitlines (phase1 version text))
      (List.range (pySplitlines (phase1 version text)).length) = true) :
    update_formula path version shaA shaI text =
      Except.ok (joinNl (scanLines shaA shaI (pySplitlines (phase1 version text))).lines
        ++ ['\n']) := by
  unfold update_formula
  rw [if_pos]
  rw [scanLines_arm_set, scanLines_intel_set, h1, h2]
  rfl

theorem update_formula_error {path version shaA shaI text : List Char}
    (h : armHit (pySplitlines (phase1 version text))
        (List.range (pySplitlines (phase1 version text)).length) = false ∨
      intelHit (pySplitlines (phase1 version text))
        (List.range (pySplitlines (phase1 version text)).length) = false) :
    update_formula path version shaA shaI text = Except.error (errMsg path) := by
  unfold update_formula
  rw [if_neg]
  rw [scanLines_arm_set, scanLines_intel_set]
  rcases h with h | h <;> rw [h] <;> simp

theorem update_formula_ok_flags {path version shaA shaI text out : List Char}
    (h : update_formula path version shaA shaI text = Except.ok out) :
    armHit (pySplitlines (phase1 version text))
        (List.range (pySplitlines (phase1 version text)).length) = true ∧
      intelHit (pySplitlines (phase1 version text))
        (List.range (pySplitlines (phase1 version text)).length) = true ∧
      out = joinNl (scanLines shaA shaI (pySplitlines (phase1 version text))).lines
        ++ ['\n'] := by
  by_cases h1 : armHit (pySplitlines (phase1 version text))
      (List.range (pySplitlines (phase1 version text)).length) = true
  · by_cases h2 : intelHit (pySplitlines (phase1 version text))
        (List.range (pySplitlines (phase1 version text)).length) = true
    · rw [update_formula_ok h1 h2] at h
      injection h with h'
      exact ⟨h1, h2, h'.symm⟩
    · rw [update_formula_error (Or.inr (by
        cases hx : intelHit (pySplitlines (phase1 version text))
          (List.range (pySplitlines (phase1 version text)).length) with
        | true => exact absurd hx h2
        | false => rfl))] at h
      exact absurd h (by simp)
  · rw [update_formula_error (Or.inl (by
      cases hx : armHit (pySplitlines (phase1 version text))
        (List.range (pySplitlines (phase1 version text)).length) with
      | true => exact absurd hx h1
      | false => rfl))] at h
    exact absurd h (by simp)

/-- With a boundary-free version string, the arm flag of the scan is
    decided by the original file lines. -/
theorem armHit_phase1 {version : List Char} (hv : ∀ c ∈ version, isLB c = false)
    (text : List Char) :
    armHit (pySplitlines (phase1 version text))
        (List.range (pySplitlines (phase1 version text)).length) =
      armHit (pySplitlines text) (List.range (pySplitlines text).length) := by
  rw [phase1_lines hv text]
  exact armHit_congr (statusEq_map_lineSub version (pySplitlines text))

theorem intelHit_phase1 {version : List Char} (hv : ∀ c ∈ version, isLB c = false)
    (text : List Char) :
    intelHit (pySplitlines (phase1 version text))
        (List.range (pySplitlines (phase1 version text)).length) =
      intelHit (pySplitlines text) (List.range (pySplitlines text).length) := by
  rw [phase1_lines hv text]
  exact intelHit_congr (statusEq_map_lineSub version (pySplitlines text))

theorem mem_writesOn {ls : List (List Char)} {shaA shaI : List Char}
    {idxs : List Nat} {p : Nat × List Char} :
    p ∈ writesOn ls shaA shaI idxs ↔
      ∃ i ∈ idxs,
        (isArmLine (ls.getD i []) = true ∧ findShaIdx ls i = some p.1 ∧
          p.2 = shaLineFor shaA) ∨
        (isArmLine (ls.getD i []) = false ∧ isIntelLine (ls.getD i []) = true ∧
          findShaIdx ls i = some p.1 ∧ p.2 = shaLineFor shaI) := by
  unfold writesOn
  rw [List.mem_filterMap]
  constructor
  · rintro ⟨i, hi, hf⟩
    refine ⟨i, hi, ?_⟩
    by_cases hA : isArmLine (ls.getD i []) = true
    · rw [if_pos hA, Option.map_eq_some'] at hf
      obtain ⟨j, hj1, rfl⟩ := hf
      exact Or.inl ⟨hA, by rw [hj1], rfl⟩
    · have hA' : isArmLine (ls.getD i []) = false := by
        cases hx : isArmLine (ls.getD i []) with
        | true => exact absurd hx hA
        | false => rfl
      rw [if_neg hA] at hf
      by_cases hI : isIntelLine (ls.getD i []) = true
      · rw [if_pos hI, Option.map_eq_some'] at hf
        obtain ⟨j, hj1, rfl⟩ := hf
        exact Or.inr ⟨hA', hI, by rw [hj1], rfl⟩
      · rw [if_neg hI] at hf
        exact absurd hf (by simp)
  · rintro ⟨i, hi, hcase⟩
    refine ⟨i, hi, ?_⟩
    rcases hcase with ⟨hA, hF, hp2⟩ | ⟨hA, hI, hF, hp2⟩
    · rw [if_pos hA, hF, Option.map_some']
      rw [show (p.1, shaLineFor shaA) = p from by rw [Prod.ext_iff]; exact ⟨rfl, hp2.symm⟩]
    · rw [if_neg (ne_true_of_eq_false hA), if_pos hI, hF, Option.map_some']
      rw [show (p.1, shaLineFor shaI) = p from by rw [Prod.ext_iff]; exact ⟨rfl, hp2.symm⟩]

/-- C3: the scan replaces, for each line stripping to an anchor
    marker, the first line in the next-seven-lines window whose
    stripped form starts with the sha256 keyword, by a
    fixed-indentation sha256 assignment for the architecture of that
    anchor; a sha256 line farther than seven lines below an anchor is
    not selected for it. -/
theorem C3_scan_bounded_window (shaA shaI : List Char) (ls : List (List Char)) :
    (scanLines shaA shaI ls =
      ⟨applyWrites ls (writesOn ls shaA shaI (List.range ls.length)),
        armHit ls (List.range ls.length), intelHit ls (List.range ls.length)⟩) ∧
    (∀ i j, findShaIdx ls i = some j →
      i + 1 ≤ j ∧ j ≤ i + 7 ∧ j < ls.length ∧ isShaLine (ls.getD j []) = true ∧
        ∀ k, i < k → k < j → isShaLine (ls.getD k []) = false) ∧
    (∀ i, (∀ k, i < k → k ≤ i + 7 → k < ls.length →
        isShaLine (ls.getD k []) = false) →
      findShaIdx ls i = none) ∧
    (∀ i, i < ls.length →
      (isArmLine (ls.getD i []) = true →
        ∀ j, findShaIdx ls i = some j →
          (j, shaLineFor shaA) ∈ writesOn ls shaA shaI (List.range ls.length)) ∧
      (isIntelLine (ls.getD i []) = true →
        ∀ j, findShaIdx ls i = some j →
          (j, shaLineFor shaI) ∈ writesOn ls shaA shaI (List.range ls.length))) ∧
    (∀ p ∈ writesOn ls shaA shaI (List.range ls.length),
      ∃ i, i < ls.length ∧ findShaIdx ls i = some p.1 ∧
        ((isArmLine (ls.getD i []) = true ∧ p.2 = shaLineFor shaA) ∨
          (isIntelLine (ls.getD i []) = true ∧ p.2 = shaLineFor shaI))) := by
  refine ⟨scanLines_spec shaA shaI ls, ?_, ?_, ?_, ?_⟩
  · intro i j h
    obtain ⟨h1, h2, h3, h4⟩ := findShaIdx_some h
    exact ⟨h1, by omega, by omega, h3, h4⟩
  · intro i hwin
    unfold findShaIdx
    rw [List.find?_eq_none]
    intro k hk
    rw [List.mem_range'_1] at hk
    rw [hwin k (by omega) (by omega) (by omega)]
    simp
  · intro i hi
    constructor
    · intro hA j hF
      exact mem_writesOn.2 ⟨i, List.mem_range.2 hi, Or.inl ⟨hA, hF, rfl⟩⟩
    · intro hI j hF
      exact mem_writesOn.2
        ⟨i, List.mem_range.2 hi, Or.inr ⟨isIntelLine_not_arm hI, hI, hF, rfl⟩⟩
  · intro p hp
    obtain ⟨i, hi, hcase⟩ := mem_writesOn.1 hp
    rcases hcase with ⟨hA, hF, hp2⟩ | ⟨_, hI, hF, hp2⟩
    · exact ⟨i, List.mem_range.1 hi, hF, Or.inl ⟨hA, hp2⟩⟩
    · exact ⟨i, List.mem_range.1 hi, hF, Or.inr ⟨hI, hp2⟩⟩

def c3wLines : List (List Char) :=
  ["on_arm do".data, "  sha256 \"x\"".data, "on_intel do".data, "  sha256 \"y\"".data]

theorem C3_scan_bounded_window_witness :
    0 + 1 ≤ 1 ∧ 1 ≤ 0 + 7 ∧ 1 < c3wLines.length ∧
      isShaLine (c3wLines.getD 1 []) = true ∧
      ∀ k, 0 < k → k < 1 → isShaLine (c3wLines.getD k []) = false :=
  (C3_scan_bounded_window "A".data "B".data c3wLines).2.1 0 1 (by rfl)

/- ---- C1 ---- -/

/-- C1 as amended: if the supplied version string contains no
    line-boundary character (no character at which str.splitlines
    breaks) and the target file has no 'on_arm do' anchor with a sha256
    line in its lookahead window, or no such 'on_intel do' anchor, then
    update_formula fails with the error naming the path and the file on
    disk keeps its original content. -/
theorem C1_missing_anchor_fails (path version sha_arm64 sha_x86_64 text : List Char)
    (hv : ∀ c ∈ version, isLB c = false)
    (hmiss :
      (¬ ∃ i, i < (pySplitlines text).length ∧
        isArmLine ((pySplitlines text).getD i []) = true ∧
        (findShaIdx (pySplitlines text) i).isSome = true) ∨
      (¬ ∃ i, i < (pySplitlines text).length ∧
        isIntelLine ((pySplitlines text).getD i []) = true ∧
        (findShaIdx (pySplitlines text) i).isSome = true)) :
    update_formula path version sha_arm64 sha_x86_64 text = Except.error (errMsg path) ∧
    runOnDisk path version sha_arm64 sha_x86_64 text = text ∧
    errMsg path = "Failed to update sha256 in ".data ++ path := by
  have herr : update_formula path version sha_arm64 sha_x86_64 text =
      Except.error (errMsg path) := by
    apply update_formula_error
    rcases hmiss with hm | hm
    · left
      rw [armHit_phase1 hv text]
      cases hx : armHit (pySplitlines text) (List.range (pySplitlines text).length) with
      | false => rfl
      | true => exact absurd ((armHit_iff _).1 hx) hm
    · right
      rw [intelHit_phase1 hv text]
      cases hx : intelHit (pySplitlines text) (List.range (pySplitlines text).length) with
      | false => rfl
      | true => exact absurd ((intelHit_iff _).1 hx) hm
  refine ⟨herr, ?_, rfl⟩
  unfold runOnDisk
  rw [herr]

theorem C1_missing_anchor_fails_witness :
    update_formula "p".data "v1.2.3".data "A".data "B".data "hello\n".data =
      Except.error (errMsg "p".data) ∧
    runOnDisk "p".data "v1.2.3".data "A".data "B".data "hello\n".data = "hello\n".data ∧
    errMsg "p".data = "Failed to update sha256 in ".data ++ "p".data :=
  C1_missing_anchor_fails "p".data "v1.2.3".data "A".data "B".data "hello\n".data
    (by decide)
    (Or.inl (by
      rintro ⟨i, hi, h2, _⟩
      have hlen : (pySplitlines "hello\n".data).length = 1 := rfl
      have hi0 : i = 0 := by omega
      subst hi0
      revert h2
      decide))

/-- C1 counterexample: a file with no anchor lines at all on which
    update_formula nevertheless succeeds and overwrites the file; the
    newline-carrying version string fabricates both anchor blocks
    during URL substitution. -/
def c1Text : List Char :=
  "url \"releases/download/v0.0.0/velar-darwin-arm64-v0.0.0.tar.gz\"".data

def c1Version : List Char := "A\non_arm do\nsha256 q\non_intel do\nsha256 q\nB".data

def c1Out : List Char :=
  ("url \"releases/download/A\non_arm do\n      sha256 \"aa11\"\non_intel do\n" ++
   "      sha256 \"bb22\"\nB/velar-darwin-arm64-A\non_arm do\n      sha256 \"aa11\"\n" ++
   "on_intel do\n      sha256 \"bb22\"\nB.tar.gz\"\n").data

theorem C1_counterexample :
    (∀ i, i < (pySplitlines c1Text).length →
      isArmLine ((pySplitlines c1Text).getD i []) = false ∧
      isIntelLine ((pySplitlines c1Text).getD i []) = false) ∧
    update_formula "p".data c1Version "aa11".data "bb22".data c1Text =
      Except.ok c1Out ∧
    c1Out ≠ c1Text ∧
    runOnDisk "p".data c1Version "aa11".data "bb22".data c1Text = c1Out :=
  ⟨by decide, by rfl, by decide, by rfl⟩

/- ---- helpers for reasoning about final line values ---- -/

theorem isArmLine_getD_lt {ls : List (List Char)} {i : Nat}
    (h : isArmLine (ls.getD i []) = true) : i < ls.length := by
  by_contra h'
  rw [List.getD_eq_getElem?_getD, List.getElem?_eq_none (by omega)] at h
  revert h
  decide

theorem isIntelLine_getD_lt {ls : List (List Char)} {i : Nat}
    (h : isIntelLine (ls.getD i []) = true) : i < ls.length := by
  by_contra h'
  rw [List.getD_eq_getElem?_getD, List.getElem?_eq_none (by omega)] at h
  revert h
  decide

theorem writesOn_targets_lt {ls : List (List Char)} {shaA shaI : List Char}
    {idxs : List Nat} : ∀ p ∈ writesOn ls shaA shaI idxs, p.1 < ls.length := by
  intro p hp
  obtain ⟨i, _, hcase⟩ := mem_writesOn.1 hp
  rcases hcase with ⟨_, hF, _⟩ | ⟨_, _, hF, _⟩ <;>
    exact (by omega : p.1 < min (i + 8) ls.length → p.1 < ls.length)
      (findShaIdx_some hF).2.1

theorem lastWrite_isSome_of_mem {ws : List (Nat × List Char)} {j : Nat}
    (h : ∃ p ∈ ws, p.1 = j) : ∃ v, lastWrite ws j = some v := by
  obtain ⟨p, hp, hpj⟩ := h
  have hne : ws.filter (fun q => q.1 == j) ≠ [] := by
    intro h0
    have : p ∈ ws.filter (fun q => q.1 == j) :=
      List.mem_filter.2 ⟨hp, by simp [hpj]⟩
    rw [h0] at this
    simp at this
  obtain ⟨q, hq⟩ : ∃ q, (ws.filter (fun q => q.1 == j)).getLast? = some q := by
    cases hx : (ws.filter (fun q => q.1 == j)).getLast? with
    | none => exact absurd (List.getLast?_eq_none_iff.1 hx) hne
    | some q => exact ⟨q, rfl⟩
  refine ⟨q.2, ?_⟩
  unfold lastWrite
  rw [hq]
  rfl

/-- The final value of a written line is one of the two sha256
    assignments, namely the one of the last anchor that selected it. -/
theorem scan_final_value {shaA shaI : List Char} {ls : List (List Char)} {j : Nat}
    (h : ∃ p ∈ writesOn ls shaA shaI (List.range ls.length), p.1 = j) :
    ∃ v, (scanLines shaA shaI ls).lines.getD j [] = v ∧
      lastWrite (writesOn ls shaA shaI (List.range ls.length)) j = some v ∧
      (v = shaLineFor shaA ∨ v = shaLineFor shaI) := by
  obtain ⟨v, hv⟩ := lastWrite_isSome_of_mem h
  refine ⟨v, ?_, hv, ?_⟩
  · rw [scanLines_lines,
      applyWrites_getD _ ls j writesOn_targets_lt, hv]
    rfl
  · obtain ⟨q, hq, _, hq2⟩ := lastWrite_mem hv
    obtain ⟨i, _, hcase⟩ := mem_writesOn.1 hq
    rcases hcase with ⟨_, _, hsha⟩ | ⟨_, _, _, hsha⟩
    · exact Or.inl (by rw [← hq2, hsha])
    · exact Or.inr (by rw [← hq2, hsha])

/- ---- C4 ---- -/

/-- C4 as amended: every occurrence of an anchor marker (not only the
    first) triggers a replacement: each anchor line whose lookahead
    window contains a sha256 line contributes a write of the
    architecture-appropriate assignment at the selected position, and
    that position holds a sha256 assignment in the final line list. -/
theorem C4_every_anchor_triggers (shaA shaI : List Char) (ls : List (List Char)) :
    ∀ i, i < ls.length → ∀ j, findShaIdx ls i = some j →
      (isArmLine (ls.getD i []) = true →
        (j, shaLineFor shaA) ∈ writesOn ls shaA shaI (List.range ls.length) ∧
        ((scanLines shaA shaI ls).lines.getD j [] = shaLineFor shaA ∨
         (scanLines shaA shaI ls).lines.getD j [] = shaLineFor shaI)) ∧
      (isIntelLine (ls.getD i []) = true →
        (j, shaLineFor shaI) ∈ writesOn ls shaA shaI (List.range ls.length) ∧
        ((scanLines shaA shaI ls).lines.getD j [] = shaLineFor shaA ∨
         (scanLines shaA shaI ls).lines.getD j [] = shaLineFor shaI)) := by
  intro i hi j hF
  constructor
  · intro hA
    have hmem : (j, shaLineFor shaA) ∈ writesOn ls shaA shaI (List.range ls.length) :=
      mem_writesOn.2 ⟨i, List.mem_range.2 hi, Or.inl ⟨hA, hF, rfl⟩⟩
    refine ⟨hmem, ?_⟩
    obtain ⟨v, hv1, _, hv3⟩ := scan_final_value ⟨(j, shaLineFor shaA), hmem, rfl⟩
    rw [hv1]
    exact hv3
  · intro hI
    have hmem : (j, shaLineFor shaI) ∈ writesOn ls shaA shaI (List.range ls.length) :=
      mem_writesOn.2 ⟨i, List.mem_range.2 hi,
        Or.inr ⟨isIntelLine_not_arm hI, hI, hF, rfl⟩⟩
    refine ⟨hmem, ?_⟩
    obtain ⟨v, hv1, _, hv3⟩ := scan_final_value ⟨(j, shaLineFor shaI), hmem, rfl⟩
    rw [hv1]
    exact hv3

/-- C4 counterexample: a file in which 'on_arm do' appears twice; the
    second occurrence also triggers a replacement (its sha256 line is
    rewritten), refuting "only the first occurrence causes a
    replacement and later occurrences are ignored". -/
def c4Text : List Char :=
  "on_arm do\n  sha256 \"a1\"\non_arm do\n  sha256 \"a2\"\non_intel do\n  sha256 \"b1\"".data

def c4Out : List Char :=
  ("on_arm do\n      sha256 \"aa11\"\non_arm do\n      sha256 \"aa11\"\n" ++
   "on_intel do\n      sha256 \"bb22\"\n").data

theorem C4_counterexample :
    isArmLine ((pySplitlines c4Text).getD 0 []) = true ∧
    isArmLine ((pySplitlines c4Text).getD 2 []) = true ∧
    update_formula "p".data "v1.2.3".data "aa11".data "bb22".data c4Text =
      Except.ok c4Out ∧
    (pySplitlines c4Out).getD 3 [] = shaLineFor "aa11".data ∧
    (pySplitlines c4Text).getD 3 [] ≠ (pySplitlines c4Out).getD 3 [] :=
  ⟨by decide, by decide, by rfl, by decide, by decide⟩

theorem C4_every_anchor_triggers_witness :
    (3, shaLineFor "aa11".data) ∈
      writesOn (pySplitlines c4Text) "aa11".data "bb22".data
        (List.range (pySplitlines c4Text).length) ∧
    ((scanLines "aa11".data "bb22".data (pySplitlines c4Text)).lines.getD 3 [] =
        shaLineFor "aa11".data ∨
     (scanLines "aa11".data "bb22".data (pySplitlines c4Text)).lines.getD 3 [] =
        shaLineFor "bb22".data) :=
  ((C4_every_anchor_triggers "aa11".data "bb22".data (pySplitlines c4Text))
    2 (by decide) 3 (by rfl)).1 (by decide)

/- ---- C2 ---- -/

/-- C2 as amended: if no line is selected as the checksum line of both
    an 'on_arm do' anchor and an 'on_intel do' anchor, then in a
    successful run every line selected under an 'on_arm do' anchor ends
    as the arm64 assignment and every line selected under an
    'on_intel do' anchor ends as the x86_64 assignment, whatever the
    order of the markers. -/
theorem C2_values_correct (path version shaA shaI text out : List Char)
    (hok : update_formula path version shaA shaI text = Except.ok out)
    (hdisj : ∀ i₁, i₁ < (pySplitlines (phase1 version text)).length →
      ∀ i₂, i₂ < (pySplitlines (phase1 version text)).length →
      ∀ j, j < (pySplitlines (phase1 version text)).length →
      isArmLine ((pySplitlines (phase1 version text)).getD i₁ []) = true →
      isIntelLine ((pySplitlines (phase1 version text)).getD i₂ []) = true →
      findShaIdx (pySplitlines (phase1 version text)) i₁ = some j →
      findShaIdx (pySplitlines (phase1 version text)) i₂ = some j → False) :
    (∀ i j, isArmLine ((pySplitlines (phase1 version text)).getD i []) = true →
      findShaIdx (pySplitlines (phase1 version text)) i = some j →
      (scanLines shaA shaI (pySplitlines (phase1 version text))).lines.getD j [] =
        shaLineFor shaA) ∧
    (∀ i j, isIntelLine ((pySplitlines (phase1 version text)).getD i []) = true →
      findShaIdx (pySplitlines (phase1 version text)) i = some j →
      (scanLines shaA shaI (pySplitlines (phase1 version text))).lines.getD j [] =
        shaLineFor shaI) ∧
    out = joinNl (scanLines shaA shaI (pySplitlines (phase1 version text))).lines
      ++ ['\n'] := by
  refine ⟨?_, ?_, (update_formula_ok_flags hok).2.2⟩
  · intro i j hA hF
    have hi : i < (pySplitlines (phase1 version text)).length := isArmLine_getD_lt hA
    have hj : j < (pySplitlines (phase1 version text)).length := by
      have := (findShaIdx_some hF).2.1
      omega
    have hmem : (j, shaLineFor shaA) ∈
        writesOn (pySplitlines (phase1 version text)) shaA shaI
          (List.range (pySplitlines (phase1 version text)).length) :=
      mem_writesOn.2 ⟨i, List.mem_range.2 hi, Or.inl ⟨hA, hF, rfl⟩⟩
    obtain ⟨v, hv1, hv2, _⟩ := scan_final_value ⟨(j, shaLineFor shaA), hmem, rfl⟩
    obtain ⟨q, hq, hqj, hqv⟩ := lastWrite_mem hv2
    obtain ⟨i', hi', hcase⟩ := mem_writesOn.1 hq
    rcases hcase with ⟨_, _, hsha⟩ | ⟨_, hI', hF', _⟩
    · rw [hv1, ← hqv, hsha]
    · exact absurd (hdisj i hi i' (List.mem_range.1 hi') j hj hA hI' hF
        (by rw [hF', hqj])) (by simp)
  · intro i j hI hF
    have hi : i < (pySplitlines (phase1 version text)).length := isIntelLine_getD_lt hI
    have hj : j < (pySplitlines (phase1 version text)).length := by
      have := (findShaIdx_some hF).2.1
      omega
    have hmem : (j, shaLineFor shaI) ∈
        writesOn (pySplitlines (phase1 version text)) shaA shaI
          (List.range (pySplitlines (phase1 version text)).length) :=
      mem_writesOn.2 ⟨i, List.mem_range.2 hi,
        Or.inr ⟨isIntelLine_not_arm hI, hI, hF, rfl⟩⟩
    obtain ⟨v, hv1, hv2, _⟩ := scan_final_value ⟨(j, shaLineFor shaI), hmem, rfl⟩
    obtain ⟨q, hq, hqj, hqv⟩ := lastWrite_mem hv2
    obtain ⟨i', hi', hcase⟩ := mem_writesOn.1 hq
    rcases hcase with ⟨hA', hF', _⟩ | ⟨_, _, _, hsha⟩
    · exact absurd (hdisj i' (List.mem_range.1 hi') i hi j hj hA' hI
        (by rw [hF', hqj]) hF) (by simp)
    · rw [hv1, ← hqv, hsha]

/-- C2 counterexample: when the two anchors share the single sha256
    line in both windows, a successful run leaves the line selected
    under 'on_arm do' holding the x86_64 value. -/
def c2Text : List Char := "on_arm do\non_intel do\n  sha256 \"old\"".data

def c2Out : List Char := "on_arm do\non_intel do\n      sha256 \"bb22\"\n".data

theorem C2_counterexample :
    isArmLine ((pySplitlines c2Text).getD 0 []) = true ∧
    findShaIdx (pySplitlines c2Text) 0 = some 2 ∧
    update_formula "p".data "v1.2.3".data "aa11".data "bb22".data c2Text =
      Except.ok c2Out ∧
    (pySplitlines c2Out).getD 2 [] = shaLineFor "bb22".data ∧
    shaLineFor "bb22".data ≠ shaLineFor "aa11".data :=
  ⟨by decide, by rfl, by rfl, by decide, by decide⟩

def c2wText : List Char := "on_arm do\n  sha256 \"x\"\non_intel do\n  sha256 \"y\"\n".data

def c2wOut : List Char :=
  "on_arm do\n      sha256 \"aa11\"\non_intel do\n      sha256 \"bb22\"\n".data

theorem C2_values_correct_witness :
    (scanLines "aa11".data "bb22".data
      (pySplitlines (phase1 "v1".data c2wText))).lines.getD 1 [] =
      shaLineFor "aa11".data :=
  (C2_values_correct "p".data "v1".data "aa11".data "bb22".data c2wText c2wOut
    (by rfl)
    (by
      intro i₁ h₁ i₂ h₂ j hj hA hI hF1 hF2
      have hL : (pySplitlines (phase1 "v1".data c2wText)).length = 4 := rfl
      rw [hL] at h₁ h₂ hj
      interval_cases i₁ <;> interval_cases i₂ <;> interval_cases j <;>
        revert hA hI hF1 hF2 <;> decide)).1 0 1 (by decide) (by rfl)

/- ---- C9 ---- -/

/-- C9 as amended: the written content is the updated lines rejoined
    with newline separators plus one appended newline, so it always
    ends with a newline; it ends with exactly one newline whenever the
    final updated line is nonempty and does not itself end with a
    newline character (a blank final line of the input yields two
    trailing newlines). -/
theorem C9_trailing_newline (path version shaA shaI text out : List Char)
    (hok : update_formula path version shaA shaI text = Except.ok out) :
    out = joinNl (scanLines shaA shaI (pySplitlines (phase1 version text))).lines
        ++ ['\n'] ∧
    out ≠ [] ∧
    out.getLast? = some '\n' ∧
    (∀ l, (scanLines shaA shaI (pySplitlines (phase1 version text))).lines.getLast? =
        some l →
      l ≠ [] → l.getLast? ≠ some '\n' → ¬ ∃ u, out = u ++ ['\n', '\n']) := by
  have hout := (update_formula_ok_flags hok).2.2
  refine ⟨hout, by rw [hout]; simp, by rw [hout]; exact List.getLast?_concat _, ?_⟩
  rintro l hlast hne hnl ⟨u, hu⟩
  obtain ⟨a, ha⟩ := joinNl_getLast hlast
  rw [hout, ha] at hu
  have hu2 : (a ++ l) ++ ['\n'] = (u ++ ['\n']) ++ ['\n'] := by
    rw [List.append_assoc, List.append_assoc]
    simpa using hu
  have hu3 : a ++ l = u ++ ['\n'] := List.append_cancel_right hu2
  have h4 : (a ++ l).getLast? = some '\n' := by
    rw [hu3]
    exact List.getLast?_concat _
  have h5 : l.getLast? = some '\n' := by
    rw [List.getLast?_append] at h4
    cases hx : l.getLast? with
    | none => exact absurd (List.getLast?_eq_none_iff.1 hx) hne
    | some c =>
      rw [hx] at h4
      simpa using h4
  exact hnl h5

def c9Text : List Char :=
  "on_arm do\n  sha256 \"x\"\non_intel do\n  sha256 \"y\"\n\n".data

def c9Out : List Char :=
  "on_arm do\n      sha256 \"aa11\"\non_intel do\n      sha256 \"bb22\"\n\n".data

/-- C9 counterexample: an input ending with a blank line produces
    output ending with two newlines, refuting "exactly one". -/
theorem C9_counterexample :
    update_formula "p".data "v1.2.3".data "aa11".data "bb22".data c9Text =
      Except.ok c9Out ∧
    (∃ u, c9Out = u ++ ['\n', '\n']) :=
  ⟨by rfl,
    ⟨"on_arm do\n      sha256 \"aa11\"\non_intel do\n      sha256 \"bb22\"".data,
      by decide⟩⟩

def c9wText : List Char := "on_arm do\n  sha256 \"x\"\non_intel do\n  sha256 \"y\"".data

theorem C9_trailing_newline_witness :
    "on_arm do\n      sha256 \"aa11\"\non_intel do\n      sha256 \"bb22\"\n".data =
      joinNl (scanLines "aa11".data "bb22".data
        (pySplitlines (phase1 "v1".data c9wText))).lines ++ ['\n'] ∧
    "on_arm do\n      sha256 \"aa11\"\non_intel do\n      sha256 \"bb22\"\n".data ≠
      ([] : List Char) ∧
    ("on_arm do\n      sha256 \"aa11\"\non_intel do\n      sha256 \"bb22\"\n".data
      : List Char).getLast? = some '\n' ∧
    (∀ l, (scanLines "aa11".data "bb22".data
        (pySplitlines (phase1 "v1".data c9wText))).lines.getLast? = some l →
      l ≠ [] → l.getLast? ≠ some '\n' →
      ¬ ∃ u, "on_arm do\n      sha256 \"aa11\"\non_intel do\n      sha256 \"bb22\"\n".data
        = u ++ ['\n', '\n']) :=
  C9_trailing_newline "p".data "v1".data "aa11".data "bb22".data c9wText
    "on_arm do\n      sha256 \"aa11\"\non_intel do\n      sha256 \"bb22\"\n".data
    (by rfl)

/- ---- the canonical formula document, used for C5, C6, C7, C8, C10 ---- -/

def velarFormula : List Char :=
  ("class Velar < Formula\n  desc \"Velar\"\n" ++
   "  homepage \"https://github.com/ubcent/velar\"\n" ++
   "  version \"0.0.0\"\n  on_macos do\n    on_arm do\n" ++
   "      url \"https://github.com/ubcent/velar/releases/download/v0.0.0/velar-darwin-arm64-v0.0.0.tar.gz\"\n" ++
   "      sha256 \"0000000000000000000000000000000000000000000000000000000000000000\"\n" ++
   "    end\n    on_intel do\n" ++
   "      url \"https://github.com/ubcent/velar/releases/download/v0.0.0/velar-darwin-x86_64-v0.0.0.tar.gz\"\n" ++
   "      sha256 \"1111111111111111111111111111111111111111111111111111111111111111\"\n" ++
   "    end\n  end\nend").data

def velarOut : List Char :=
  ("class Velar < Formula\n  desc \"Velar\"\n" ++
   "  homepage \"https://github.com/ubcent/velar\"\n" ++
   "  version \"1.2.3\"\n  on_macos do\n    on_arm do\n" ++
   "      url \"https://github.com/ubcent/velar/releases/download/v1.2.3/velar-darwin-arm64-v1.2.3.tar.gz\"\n" ++
   "      sha256 \"aa11\"\n" ++
   "    end\n    on_intel do\n" ++
   "      url \"https://github.com/ubcent/velar/releases/download/v1.2.3/velar-darwin-x86_64-v1.2.3.tar.gz\"\n" ++
   "      sha256 \"bb22\"\n" ++
   "    end\n  end\nend\n").data

/- ---- C5 ---- -/

/-- C5 counterexample: a file with both anchor blocks but no
    placeholder version or URL strings updates successfully, yet the
    written file contains no download URL and no version string at
    all, refuting the claimed invariant. -/
def c5Text : List Char := "on_arm do\n  sha256 \"x\"\non_intel do\n  sha256 \"y\"".data

def c5Out : List Char :=
  "on_arm do\n      sha256 \"aa11\"\non_intel do\n      sha256 \"bb22\"\n".data

theorem C5_counterexample :
    update_formula "p".data "v1.2.3".data "aa11".data "bb22".data c5Text =
      Except.ok c5Out ∧
    containsSub "releases/download/".data c5Out = false ∧
    containsSub "version \"".data c5Out = false :=
  ⟨by rfl, by decide, by decide⟩

/- ---- C10 ---- -/

def velarOutVV : List Char :=
  ("class Velar < Formula\n  desc \"Velar\"\n" ++
   "  homepage \"https://github.com/ubcent/velar\"\n" ++
   "  version \"1.2.3\"\n  on_macos do\n    on_arm do\n" ++
   "      url \"https://github.com/ubcent/velar/releases/download/vv1.2.3/velar-darwin-arm64-vv1.2.3.tar.gz\"\n" ++
   "      sha256 \"aa11\"\n" ++
   "    end\n    on_intel do\n" ++
   "      url \"https://github.com/ubcent/velar/releases/download/vv1.2.3/velar-darwin-x86_64-vv1.2.3.tar.gz\"\n" ++
   "      sha256 \"bb22\"\n" ++
   "    end\n  end\nend\n").data

def velarOutVVV : List Char :=
  ("class Velar < Formula\n  desc \"Velar\"\n" ++
   "  homepage \"https://github.com/ubcent/velar\"\n" ++
   "  version \"\"\n  on_macos do\n    on_arm do\n" ++
   "      url \"https://github.com/ubcent/velar/releases/download/vvv/velar-darwin-arm64-vvv.tar.gz\"\n" ++
   "      sha256 \"aa11\"\n" ++
   "    end\n    on_intel do\n" ++
   "      url \"https://github.com/ubcent/velar/releases/download/vvv/velar-darwin-x86_64-vvv.tar.gz\"\n" ++
   "      sha256 \"bb22\"\n" ++
   "    end\n  end\nend\n").data

/-- C10: the version prefix stripping drops every leading 'v': version
    "vv1.2.3" yields the field version "1.2.3" (while the URLs keep the
    raw "vv1.2.3"), and a version of only 'v' characters yields an
    empty version field. -/
theorem C10_version_lstrip :
    update_formula "p".data "vv1.2.3".data "aa11".data "bb22".data velarFormula =
      Except.ok velarOutVV ∧
    containsSub "version \"1.2.3\"".data velarOutVV = true ∧
    containsSub "vv1.2.3".data velarOutVV = true ∧
    update_formula "p".data "vvv".data "aa11".data "bb22".data velarFormula =
      Except.ok velarOutVVV ∧
    containsSub "version \"\"".data velarOutVVV = true ∧
    "vv1.2.3".data.dropWhile (fun c => c = 'v') = "1.2.3".data ∧
    "vvv".data.dropWhile (fun c => c = 'v') = [] :=
  ⟨by rfl, by decide, by decide, by rfl, by decide, by decide, by decide⟩

/- ---- survival of non-sha lines through substitutions and scan ---- -/

theorem containsSub_false_of_missing_char {pat l : List Char} (c : Char)
    (hc : c ∈ pat) (hl : ∀ d ∈ l, d ≠ c) : containsSub pat l = false := by
  cases hx : containsSub pat l with
  | false => rfl
  | true => exact absurd rfl (hl c (mem_of_containsSub hx c hc))

/-- A line of the input file that is not a sha256 line reappears,
    substituted, as a line of the final written content. -/
theorem line_survives (shaA shaI : List Char) {version text : List Char}
    (hv : ∀ c ∈ version, isLB c = false) {L : List Char} (hL : L ∈ pySplitlines text)
    (hsha : isShaLine L = false) {x : List Char}
    (hx : containsSub x (lineSub version L) = true) :
    containsSub x
      (joinNl (scanLines shaA shaI (pySplitlines (phase1 version text))).lines
        ++ ['\n']) = true := by
  obtain ⟨k, hk, hkL⟩ := List.getElem_of_mem hL
  have hsc : pySplitlines (phase1 version text) =
      (pySplitlines text).map (lineSub version) := phase1_lines hv text
  have hlen : k < (pySplitlines (phase1 version text)).length := by
    rw [hsc]
    simpa using hk
  have hkL' : (pySplitlines (phase1 version text)).getD k [] = lineSub version L := by
    rw [hsc, List.getD_eq_getElem?_getD, List.getElem?_map,
      List.getElem?_eq_getElem hk, hkL]
    rfl
  have hsha' : isShaLine ((pySplitlines (phase1 version text)).getD k []) = false := by
    rw [hkL', lineSub_isShaLine, hsha]
  have hnw : ∀ p ∈ writesOn (pySplitlines (phase1 version text)) shaA shaI
      (List.range (pySplitlines (phase1 version text)).length), p.1 ≠ k := by
    intro p hp hpk
    obtain ⟨i, _, hcase⟩ := mem_writesOn.1 hp
    rcases hcase with ⟨_, hF, _⟩ | ⟨_, _, hF, _⟩ <;>
    · have hsel := (findShaIdx_some hF).2.2.1
      rw [hpk, hsha'] at hsel
      exact absurd hsel (by simp)
  have hfinal : (scanLines shaA shaI (pySplitlines (phase1 version text))).lines.getD
      k [] = lineSub version L := by
    rw [scanLines_lines,
      applyWrites_getD _ (pySplitlines (phase1 version text)) k writesOn_targets_lt,
      lastWrite_eq_none hnw, hkL']
    rfl
  have hlen2 : k < (scanLines shaA shaI (pySplitlines (phase1 version text))).lines.length := by
    rw [scanLines_lines, applyWrites_length]
    exact hlen
  have hmem : lineSub version L ∈
      (scanLines shaA shaI (pySplitlines (phase1 version text))).lines := by
    rw [List.getD_eq_getElem?_getD, List.getElem?_eq_getElem hlen2] at hfinal
    have h2 : (scanLines shaA shaI (pySplitlines (phase1 version text))).lines[k] =
        lineSub version L := by simpa using hfinal
    rw [← h2]
    exact List.getElem_mem hlen2
  obtain ⟨a, b, hab⟩ := joinNl_mem_decomp hmem
  rw [hab]
  have := containsSub_mono hx a (b ++ ['\n'])
  rw [List.append_assoc, List.append_assoc]
  simpa [List.append_assoc] using this

/- ---- C6 ---- -/

/-- C6 as amended: provided the version string contains no
    line-boundary character, the placeholder version declaration
    appears on a line that is not a sha256 line, and that line with the
    version placeholder substituted contains neither placeholder URL
    string, a successful run writes a file containing the version field
    with the supplied version's leading 'v' characters removed, while
    the raw version string (prefix retained) is what the URL
    replacements interpolate. -/
theorem C6_version_field (path version shaA shaI text out : List Char)
    (hok : update_formula path version shaA shaI text = Except.ok out)
    (hv : ∀ c ∈ version, isLB c = false)
    (L : List Char) (hL : L ∈ pySplitlines text)
    (hLp : containsSub pat1 L = true)
    (hLs : isShaLine L = false)
    (h2 : containsSub pat2 (replaceAll pat1 (repl1 version) L) = false)
    (h3 : containsSub pat3 (replaceAll pat1 (repl1 version) L) = false) :
    containsSub ("version \"".data ++ version.dropWhile (fun c => c = 'v') ++
      "\"".data) out = true ∧
    repl2 version = "releases/download/".data ++ version ++
      "/velar-darwin-arm64-".data ++ version ++ ".tar.gz".data ∧
    repl3 version = "releases/download/".data ++ version ++
      "/velar-darwin-x86_64-".data ++ version ++ ".tar.gz".data := by
  refine ⟨?_, rfl, rfl⟩
  have hout := (update_formula_ok_flags hok).2.2
  rw [hout]
  have h1 : containsSub (repl1 version) (replaceAll pat1 (repl1 version) L) = true :=
    replaceAll_contains_repl (by decide) L hLp
  have hlineSub : lineSub version L = replaceAll pat1 (repl1 version) L := by
    unfold lineSub
    rw [replaceAll_of_not_contains h2, replaceAll_of_not_contains h3]
  have hx : containsSub ("version \"".data ++
      version.dropWhile (fun c => c = 'v') ++ "\"".data)
      (lineSub version L) = true := by
    rw [hlineSub]
    exact h1
  exact line_survives shaA shaI hv hL hLs hx

theorem C6_version_field_witness :
    containsSub ("version \"".data ++
      "v1.2.3".data.dropWhile (fun c => c = 'v') ++ "\"".data) velarOut = true ∧
    repl2 "v1.2.3".data = "releases/download/".data ++ "v1.2.3".data ++
      "/velar-darwin-arm64-".data ++ "v1.2.3".data ++ ".tar.gz".data ∧
    repl3 "v1.2.3".data = "releases/download/".data ++ "v1.2.3".data ++
      "/velar-darwin-x86_64-".data ++ "v1.2.3".data ++ ".tar.gz".data :=
  C6_version_field "p".data "v1.2.3".data "aa11".data "bb22".data velarFormula
    velarOut (by rfl) (by decide) "  version \"0.0.0\"".data
    (by decide) (by decide) (by decide) (by decide) (by decide)

/-- C6 counterexample: the placeholder version declaration sits on a
    sha256 line inside the arm anchor's window; the run succeeds but
    the scan overwrites the whole line, so the written file has no
    version field at all. -/
def c6Text : List Char :=
  "on_arm do\n  sha256 version \"0.0.0\"\non_intel do\n  sha256 \"b\"".data

def c6Out : List Char :=
  "on_arm do\n      sha256 \"aa11\"\non_intel do\n      sha256 \"bb22\"\n".data

theorem C6_counterexample :
    containsSub pat1 c6Text = true ∧
    isArmLine ((pySplitlines c6Text).getD 0 []) = true ∧
    isIntelLine ((pySplitlines c6Text).getD 2 []) = true ∧
    update_formula "p".data "v1.2.3".data "aa11".data "bb22".data c6Text =
      Except.ok c6Out ∧
    containsSub "version \"1.2.3\"".data c6Out = false :=
  ⟨by decide, by decide, by decide, by rfl, by decide⟩

/- ---- C7 ---- -/

/-- C7 as amended: provided the version string contains no
    line-boundary character: an arm64 placeholder URL line that is not
    a sha256 line, does not contain the version placeholder, and whose
    substituted form does not contain the x86_64 URL placeholder,
    survives into the written file with the supplied version string
    interpolated verbatim (prefix retained) and the arm64 architecture
    token; an x86_64 placeholder URL line containing neither of the
    other placeholders survives likewise with the x86_64 token; in
    particular the spec's end-to-end example on the canonical document
    holds. -/
theorem C7_urls (path version shaA shaI text out : List Char)
    (hok : update_formula path version shaA shaI text = Except.ok out)
    (hv : ∀ c ∈ version, isLB c = false) :
    (∀ L, L ∈ pySplitlines text → containsSub pat2 L = true →
      containsSub pat1 L = false →
      containsSub pat3 (replaceAll pat2 (repl2 version) L) = false →
      isShaLine L = false →
      containsSub (repl2 version) out = true) ∧
    (∀ L, L ∈ pySplitlines text → containsSub pat3 L = true →
      containsSub pat1 L = false → containsSub pat2 L = false →
      isShaLine L = false →
      containsSub (repl3 version) out = true) ∧
    update_formula "q".data "v1.2.3".data "aa11".data "bb22".data velarFormula =
      Except.ok velarOut ∧
    containsSub
      "releases/download/v1.2.3/velar-darwin-arm64-v1.2.3.tar.gz".data velarOut
      = true ∧
    containsSub
      "releases/download/v1.2.3/velar-darwin-x86_64-v1.2.3.tar.gz".data velarOut
      = true ∧
    containsSub "version \"1.2.3\"".data velarOut = true := by
  have hout := (update_formula_ok_flags hok).2.2
  refine ⟨?_, ?_, by rfl, by decide, by decide, by decide⟩
  · intro L hL hp2 hp1 h3 hLs
    rw [hout]
    have e1 : replaceAll pat1 (repl1 version) L = L :=
      replaceAll_of_not_contains hp1
    have h1 : containsSub (repl2 version) (replaceAll pat2 (repl2 version) L) = true :=
      replaceAll_contains_repl (by decide) L hp2
    have hlineSub : lineSub version L = replaceAll pat2 (repl2 version) L := by
      unfold lineSub
      rw [e1, replaceAll_of_not_contains h3]
    exact line_survives shaA shaI hv hL hLs (by rw [hlineSub]; exact h1)
  · intro L hL hp3 hp1 hp2 hLs
    rw [hout]
    have e1 : replaceAll pat1 (repl1 version) L = L :=
      replaceAll_of_not_contains hp1
    have e2 : replaceAll pat2 (repl2 version) L = L :=
      replaceAll_of_not_contains hp2
    have h1 : containsSub (repl3 version) (replaceAll pat3 (repl3 version) L) = true :=
      replaceAll_contains_repl (by decide) L hp3
    have hlineSub : lineSub version L = replaceAll pat3 (repl3 version) L := by
      unfold lineSub
      rw [e1, e2]
    exact line_survives shaA shaI hv hL hLs (by rw [hlineSub]; exact h1)

theorem C7_urls_witness :
    containsSub (repl2 "v1.2.3".data) velarOut = true ∧
    containsSub (repl3 "v1.2.3".data) velarOut = true :=
  ⟨(C7_urls "p".data "v1.2.3".data "aa11".data "bb22".data velarFormula velarOut
      (by rfl) (by decide)).1
      ("      url \"https://github.com/ubcent/velar/releases/download/v0.0.0/velar-darwin-arm64-v0.0.0.tar.gz\"").data
      (by decide) (by decide) (by decide) (by decide) (by decide),
    (C7_urls "p".data "v1.2.3".data "aa11".data "bb22".data velarFormula velarOut
      (by rfl) (by decide)).2.1
      ("      url \"https://github.com/ubcent/velar/releases/download/v0.0.0/velar-darwin-x86_64-v0.0.0.tar.gz\"").data
      (by decide) (by decide) (by decide) (by decide) (by decide)⟩

/-- C7 counterexample: both placeholder URLs sit on sha256 lines inside
    the anchor windows; the run succeeds but the scan overwrites both
    lines, so the written file contains no download URL at all. -/
def c7Text : List Char :=
  ("on_arm do\n  sha256 releases/download/v0.0.0/velar-darwin-arm64-v0.0.0.tar.gz\n" ++
   "on_intel do\n  sha256 releases/download/v0.0.0/velar-darwin-x86_64-v0.0.0.tar.gz").data

def c7Out : List Char :=
  "on_arm do\n      sha256 \"aa11\"\non_intel do\n      sha256 \"bb22\"\n".data

theorem C7_counterexample :
    containsSub pat2 c7Text = true ∧
    containsSub pat3 c7Text = true ∧
    update_formula "p".data "v1.2.3".data "aa11".data "bb22".data c7Text =
      Except.ok c7Out ∧
    containsSub (repl2 "v1.2.3".data) c7Out = false ∧
    containsSub (repl3 "v1.2.3".data) c7Out = false ∧
    containsSub "releases/download/".data c7Out = false :=
  ⟨by decide, by decide, by rfl, by decide, by decide, by decide⟩

/- ---- idempotence of the scan ---- -/

theorem statusEq_scan_result (shaA shaI : List Char) (ls : List (List Char)) :
    statusEq (scanLines shaA shaI ls).lines ls := by
  refine ⟨by rw [scanLines_lines, applyWrites_length], ?_⟩
  intro k
  rw [scanLines_lines, applyWrites_getD _ ls k writesOn_targets_lt]
  cases hlw : lastWrite (writesOn ls shaA shaI (List.range ls.length)) k with
  | none => exact ⟨rfl, rfl, rfl⟩
  | some v =>
    obtain ⟨q, hq, hqk, hqv⟩ := lastWrite_mem hlw
    obtain ⟨i, _, hcase⟩ := mem_writesOn.1 hq
    have hsha : isShaLine (ls.getD k []) = true := by
      rcases hcase with ⟨_, hF, _⟩ | ⟨_, _, hF, _⟩ <;>
      · have hsel := (findShaIdx_some hF).2.2.1
        rwa [hqk] at hsel
    have hval : ∃ s, v = shaLineFor s := by
      rcases hcase with ⟨_, _, hs⟩ | ⟨_, _, _, hs⟩
      · exact ⟨shaA, by rw [← hqv, hs]⟩
      · exact ⟨shaI, by rw [← hqv, hs]⟩
    obtain ⟨s, rfl⟩ := hval
    refine ⟨?_, ?_, ?_⟩
    · show isShaLine (shaLineFor s) = isShaLine (ls.getD k [])
      rw [isShaLine_shaLineFor, hsha]
    · show isArmLine (shaLineFor s) = isArmLine (ls.getD k [])
      rw [isArmLine_shaLineFor, isShaLine_not_arm hsha]
    · show isIntelLine (shaLineFor s) = isIntelLine (ls.getD k [])
      rw [isIntelLine_shaLineFor, isShaLine_not_intel hsha]

theorem writesOn_congr {cur ls : List (List Char)} (h : statusEq cur ls)
    (shaA shaI : List Char) :
    writesOn cur shaA shaI (List.range cur.length) =
      writesOn ls shaA shaI (List.range ls.length) := by
  unfold writesOn
  rw [h.1]
  apply List.filterMap_congr
  intro i _
  rw [(h.2 i).2.1, (h.2 i).2.2, findShaIdx_congr h i]

theorem ext_getD {l₁ l₂ : List (List Char)} (hlen : l₁.length = l₂.length)
    (h : ∀ j, l₁.getD j [] = l₂.getD j []) : l₁ = l₂ := by
  apply List.ext_getElem?
  intro n
  by_cases hn : n < l₁.length
  · rw [List.getElem?_eq_getElem hn, List.getElem?_eq_getElem (hlen ▸ hn)]
    have h2 := h n
    rw [List.getD_eq_getElem?_getD, List.getD_eq_getElem?_getD,
      List.getElem?_eq_getElem hn, List.getElem?_eq_getElem (hlen ▸ hn)] at h2
    simpa using h2
  · rw [List.getElem?_eq_none (by omega), List.getElem?_eq_none (by omega)]

theorem applyWrites_idem (ls : List (List Char)) (ws : List (Nat × List Char))
    (hb : ∀ p ∈ ws, p.1 < ls.length) :
    applyWrites (applyWrites ls ws) ws = applyWrites ls ws := by
  apply ext_getD
  · rw [applyWrites_length, applyWrites_length]
  · intro j
    have hb2 : ∀ p ∈ ws, p.1 < (applyWrites ls ws).length := by
      intro p hp
      rw [applyWrites_length]
      exact hb p hp
    rw [applyWrites_getD ws (applyWrites ls ws) j hb2]
    cases hlw : lastWrite ws j with
    | none => rfl
    | some v =>
      rw [applyWrites_getD ws ls j hb, hlw]
      rfl

theorem scan_scan_lines (shaA shaI : List Char) (ls : List (List Char)) :
    (scanLines shaA shaI ((scanLines shaA shaI ls).lines)).lines =
      (scanLines shaA shaI ls).lines := by
  have hse := statusEq_scan_result shaA shaI ls
  rw [scanLines_lines shaA shaI ((scanLines shaA shaI ls).lines), writesOn_congr hse,
    scanLines_lines shaA shaI ls]
  exact applyWrites_idem ls _ (fun p hp => writesOn_targets_lt p hp)

theorem scanLines_lines_noLB {shaA shaI : List Char} {ls : List (List Char)}
    (hls : ∀ l ∈ ls, ∀ c ∈ l, isLB c = false)
    (ha : ∀ c ∈ shaA, isLB c = false) (hb : ∀ c ∈ shaI, isLB c = false) :
    ∀ l ∈ (scanLines shaA shaI ls).lines, ∀ c ∈ l, isLB c = false := by
  intro l hl c hc
  rw [scanLines_lines] at hl
  rcases applyWrites_mem _ ls l hl with h | ⟨p, hp, hlp⟩
  · exact hls l h c hc
  · obtain ⟨i, _, hcase⟩ := mem_writesOn.1 hp
    have hform : ∃ s, (∀ d ∈ s, isLB d = false) ∧ p.2 = shaLineFor s := by
      rcases hcase with ⟨_, _, hs⟩ | ⟨_, _, _, hs⟩
      · exact ⟨shaA, ha, hs⟩
      · exact ⟨shaI, hb, hs⟩
    obtain ⟨s, hs1, hs2⟩ := hform
    rw [hlp, hs2] at hc
    unfold shaLineFor at hc
    simp only [List.append_assoc, List.mem_append] at hc
    have hfa : ∀ d ∈ "      sha256 \"".data, isLB d = false := by decide
    have hfb : ∀ d ∈ "\"".data, isLB d = false := by decide
    rcases hc with h | h | h
    · exact hfa c h
    · exact hs1 c h
    · exact hfb c h

/- ---- the canonical document, line by line: material for C5 ---- -/

/-- replaceAll at the first pattern occurrence: if no occurrence starts
    inside the prefix a, the leftmost replacement happens right after
    a, exactly as Python str.replace does. -/
theorem replaceAll_first_at {pat repl : List Char} (hp : pat ≠ []) :
    ∀ (a b : List Char),
      (∀ k, k < a.length → pat.isPrefixOf ((a ++ (pat ++ b)).drop k) = false) →
      replaceAll pat repl (a ++ (pat ++ b)) =
        a ++ (repl ++ replaceAll pat repl b) := by
  intro a
  induction a with
  | nil =>
    intro b _
    simp only [List.nil_append]
    rw [replaceAll_pos repl hp (isPrefixOf_self pat b), List.drop_left]
  | cons a₀ a₂ ih =>
    intro b hk
    rw [List.cons_append, replaceAll_cons_neg repl hp (by simpa using hk 0 (by simp))]
    rw [ih b (fun k hklt => by simpa using hk (k + 1) (by simp; omega))]
    rfl

def urlArmLine : List Char :=
  "      url \"https://github.com/ubcent/velar/releases/download/v0.0.0/velar-darwin-arm64-v0.0.0.tar.gz\"".data

def urlIntelLine : List Char :=
  "      url \"https://github.com/ubcent/velar/releases/download/v0.0.0/velar-darwin-x86_64-v0.0.0.tar.gz\"".data

theorem lineSub_id_of_no_pats {version l : List Char}
    (h1 : containsSub pat1 l = false) (h2 : containsSub pat2 l = false)
    (h3 : containsSub pat3 l = false) : lineSub version l = l := by
  unfold lineSub
  rw [replaceAll_of_not_contains h1, replaceAll_of_not_contains h2,
    replaceAll_of_not_contains h3]

/-- The version placeholder line of the canonical document under the
    three substitutions. -/
theorem lineSub_velar_version {version : List Char}
    (hv2 : ∀ c ∈ version, c ≠ '/') :
    lineSub version "  version \"0.0.0\"".data =
      "  version \"".data ++ version.dropWhile (fun c => c = 'v') ++ "\"".data := by
  have e1 : replaceAll pat1 (repl1 version) "  version \"0.0.0\"".data =
      "  ".data ++ repl1 version := by
    rw [show ("  version \"0.0.0\"".data : List Char) = "  ".data ++ (pat1 ++ [])
      from by decide]
    rw [replaceAll_first_at (by decide) "  ".data [] (by decide)]
    rw [replaceAll_nil, List.append_nil]
  have hfa : ∀ d ∈ "  ".data, d ≠ '/' := by decide
  have hfb : ∀ d ∈ "version \"".data, d ≠ '/' := by decide
  have hfc : ∀ d ∈ "\"".data, d ≠ '/' := by decide
  have hnos : ∀ c ∈ "  ".data ++ repl1 version, c ≠ '/' := by
    intro c hc
    rcases List.mem_append.1 hc with h | h
    · exact hfa c h
    · unfold repl1 at h
      simp only [List.append_assoc, List.mem_append] at h
      rcases h with h | h | h
      · exact hfb c h
      · exact hv2 c (List.Sublist.mem h (List.dropWhile_sublist _))
      · exact hfc c h
  have h2 : containsSub pat2 ("  ".data ++ repl1 version) = false :=
    containsSub_false_of_missing_char '/' (by decide) hnos
  have h3 : containsSub pat3 ("  ".data ++ repl1 version) = false :=
    containsSub_false_of_missing_char '/' (by decide) hnos
  unfold lineSub
  rw [e1, replaceAll_of_not_contains h2, replaceAll_of_not_contains h3]
  unfold repl1
  rfl

/-- The arm64 URL placeholder line of the canonical document under the
    three substitutions. -/
theorem lineSub_velar_armUrl {version : List Char}
    (hvx : ∀ c ∈ version, c ≠ 'x') :
    lineSub version urlArmLine =
      "      url \"https://github.com/ubcent/velar/".data ++ repl2 version ++ "\"".data := by
  have e1 : replaceAll pat1 (repl1 version) urlArmLine = urlArmLine :=
    replaceAll_of_not_contains (by decide)
  have e2 : replaceAll pat2 (repl2 version) urlArmLine =
      "      url \"https://github.com/ubcent/velar/".data ++ (repl2 version ++
        replaceAll pat2 (repl2 version) "\"".data) := by
    rw [show urlArmLine = "      url \"https://github.com/ubcent/velar/".data ++ (pat2 ++ "\"".data) from by decide]
    exact replaceAll_first_at (by decide) _ _ (by decide)
  have e2q : replaceAll pat2 (repl2 version) "\"".data = "\"".data :=
    replaceAll_of_not_contains (by decide)
  rw [e2q] at e2
  have hfa : ∀ d ∈ "      url \"https://github.com/ubcent/velar/".data, d ≠ 'x' := by decide
  have hfb : ∀ d ∈ "\"".data, d ≠ 'x' := by decide
  have hfc : ∀ d ∈ "releases/download/".data, d ≠ 'x' := by decide
  have hfd : ∀ d ∈ "/velar-darwin-arm64-".data, d ≠ 'x' := by decide
  have hfe : ∀ d ∈ ".tar.gz".data, d ≠ 'x' := by decide
  have hnox : ∀ c ∈ "      url \"https://github.com/ubcent/velar/".data ++ (repl2 version ++ "\"".data), c ≠ 'x' := by
    intro c hc
    rcases List.mem_append.1 hc with h | h
    · exact hfa c h
    · rcases List.mem_append.1 h with h | h
      · unfold repl2 at h
        simp only [List.append_assoc, List.mem_append] at h
        rcases h with h | h | h | h | h
        · exact hfc c h
        · exact hvx c h
        · exact hfd c h
        · exact hvx c h
        · exact hfe c h
      · exact hfb c h
  have h3 : containsSub pat3 ("      url \"https://github.com/ubcent/velar/".data ++ (repl2 version ++ "\"".data)) = false :=
    containsSub_false_of_missing_char 'x' (by decide) hnox
  unfold lineSub
  rw [e1, e2, replaceAll_of_not_contains h3]
  rw [List.append_assoc]

/-- The x86_64 URL placeholder line of the canonical document under
    the three substitutions. -/
theorem lineSub_velar_intelUrl (version : List Char) :
    lineSub version urlIntelLine =
      "      url \"https://github.com/ubcent/velar/".data ++ repl3 version ++ "\"".data := by
  have e1 : replaceAll pat1 (repl1 version) urlIntelLine = urlIntelLine :=
    replaceAll_of_not_contains (by decide)
  have e2 : replaceAll pat2 (repl2 version) urlIntelLine = urlIntelLine :=
    replaceAll_of_not_contains (by decide)
  have e3q : replaceAll pat3 (repl3 version) "\"".data = "\"".data :=
    replaceAll_of_not_contains (by decide)
  unfold lineSub
  rw [e1, e2, show urlIntelLine = "      url \"https://github.com/ubcent/velar/".data ++ (pat3 ++ "\"".data) from by decide]
  rw [replaceAll_first_at (by decide) _ _ (by decide), e3q, List.append_assoc]

/-- The lines of the canonical formula document. -/
def velarLines : List (List Char) :=
  ["class Velar < Formula".data,
   "  desc \"Velar\"".data,
   "  homepage \"https://github.com/ubcent/velar\"".data,
   "  version \"0.0.0\"".data,
   "  on_macos do".data,
   "    on_arm do".data,
   urlArmLine,
   "      sha256 \"0000000000000000000000000000000000000000000000000000000000000000\"".data,
   "    end".data,
   "    on_intel do".data,
   urlIntelLine,
   "      sha256 \"1111111111111111111111111111111111111111111111111111111111111111\"".data,
   "    end".data,
   "  end".data,
   "end".data]

theorem velar_split : pySplitlines velarFormula = velarLines := by rfl

/-- The canonical document after the substitution phase. -/
def velarLinesMid (version : List Char) : List (List Char) :=
  ["class Velar < Formula".data,
   "  desc \"Velar\"".data,
   "  homepage \"https://github.com/ubcent/velar\"".data,
   "  version \"".data ++ version.dropWhile (fun c => c = 'v') ++ "\"".data,
   "  on_macos do".data,
   "    on_arm do".data,
   "      url \"https://github.com/ubcent/velar/".data ++ repl2 version ++ "\"".data,
   "      sha256 \"0000000000000000000000000000000000000000000000000000000000000000\"".data,
   "    end".data,
   "    on_intel do".data,
   "      url \"https://github.com/ubcent/velar/".data ++ repl3 version ++ "\"".data,
   "      sha256 \"1111111111111111111111111111111111111111111111111111111111111111\"".data,
   "    end".data,
   "  end".data,
   "end".data]

/-- The canonical document after substitution and scan. -/
def velarLinesOut (version shaA shaI : List Char) : List (List Char) :=
  ["class Velar < Formula".data,
   "  desc \"Velar\"".data,
   "  homepage \"https://github.com/ubcent/velar\"".data,
   "  version \"".data ++ version.dropWhile (fun c => c = 'v') ++ "\"".data,
   "  on_macos do".data,
   "    on_arm do".data,
   "      url \"https://github.com/ubcent/velar/".data ++ repl2 version ++ "\"".data,
   shaLineFor shaA,
   "    end".data,
   "    on_intel do".data,
   "      url \"https://github.com/ubcent/velar/".data ++ repl3 version ++ "\"".data,
   shaLineFor shaI,
   "    end".data,
   "  end".data,
   "end".data]

theorem velar_mid {version : List Char} (hv2 : ∀ c ∈ version, c ≠ '/')
    (hvx : ∀ c ∈ version, c ≠ 'x') :
    velarLines.map (lineSub version) = velarLinesMid version := by
  have h0 : lineSub version "class Velar < Formula".data = "class Velar < Formula".data :=
    lineSub_id_of_no_pats (by decide) (by decide) (by decide)
  have h1 : lineSub version "  desc \"Velar\"".data = "  desc \"Velar\"".data :=
    lineSub_id_of_no_pats (by decide) (by decide) (by decide)
  have h2 : lineSub version "  homepage \"https://github.com/ubcent/velar\"".data = "  homepage \"https://github.com/ubcent/velar\"".data :=
    lineSub_id_of_no_pats (by decide) (by decide) (by decide)
  have h4 : lineSub version "  on_macos do".data = "  on_macos do".data :=
    lineSub_id_of_no_pats (by decide) (by decide) (by decide)
  have h5 : lineSub version "    on_arm do".data = "    on_arm do".data :=
    lineSub_id_of_no_pats (by decide) (by decide) (by decide)
  have h7 : lineSub version "      sha256 \"0000000000000000000000000000000000000000000000000000000000000000\"".data = "      sha256 \"0000000000000000000000000000000000000000000000000000000000000000\"".data :=
    lineSub_id_of_no_pats (by decide) (by decide) (by decide)
  have h8 : lineSub version "    end".data = "    end".data :=
    lineSub_id_of_no_pats (by decide) (by decide) (by decide)
  have h9 : lineSub version "    on_intel do".data = "    on_intel do".data :=
    lineSub_id_of_no_pats (by decide) (by decide) (by decide)
  have h11 : lineSub version "      sha256 \"1111111111111111111111111111111111111111111111111111111111111111\"".data = "      sha256 \"1111111111111111111111111111111111111111111111111111111111111111\"".data :=
    lineSub_id_of_no_pats (by decide) (by decide) (by decide)
  have h13 : lineSub version "  end".data = "  end".data :=
    lineSub_id_of_no_pats (by decide) (by decide) (by decide)
  have h14 : lineSub version "end".data = "end".data :=
    lineSub_id_of_no_pats (by decide) (by decide) (by decide)
  unfold velarLines velarLinesMid
  simp only [List.map_cons, List.map_nil]
  rw [h0, h1, h2, lineSub_velar_version hv2, h4, h5, lineSub_velar_armUrl hvx, h7, h8,
    h9, lineSub_velar_intelUrl version, h11, h13, h14]

theorem pyRstrip_quote_append (u : List Char) :
    pyRstrip (u ++ "\"".data) = u ++ "\"".data := by
  rw [pyRstrip_append (show pyRstrip "\"".data ≠ [] from by decide)]
  rfl

theorem pyStrip_velar_versionLine (version : List Char) :
    pyStrip ("  version \"".data ++ version.dropWhile (fun c => c = 'v') ++
      "\"".data) =
      ("version \"".data ++ version.dropWhile (fun c => c = 'v')) ++ "\"".data := by
  have e : "  version \"".data ++ version.dropWhile (fun c => c = 'v') ++ "\"".data =
      "  ".data ++ (("version \"".data ++ version.dropWhile (fun c => c = 'v')) ++
        "\"".data) := rfl
  rw [e, pyStrip_append_good (goodHead_append (goodHead_append (by decide) _) _)]
  rw [pyRstrip_quote_append]
  rfl

theorem pyStrip_velar_urlLine2 (version : List Char) :
    pyStrip ("      url \"https://github.com/ubcent/velar/".data ++ repl2 version ++ "\"".data) =
      "url \"https://github.com/ubcent/velar/".data ++ (repl2 version ++ "\"".data) := by
  have e : "      url \"https://github.com/ubcent/velar/".data ++ repl2 version ++ "\"".data =
      "      url \"https://github.com/ubcent/velar/".data ++ (repl2 version ++ "\"".data) := by
    rw [List.append_assoc]
  rw [e, pyStrip_append_good (goodHead_append (goodHead_repl2 version) _)]
  rw [pyRstrip_quote_append]
  rfl

theorem pyStrip_velar_urlLine3 (version : List Char) :
    pyStrip ("      url \"https://github.com/ubcent/velar/".data ++ repl3 version ++ "\"".data) =
      "url \"https://github.com/ubcent/velar/".data ++ (repl3 version ++ "\"".data) := by
  have e : "      url \"https://github.com/ubcent/velar/".data ++ repl3 version ++ "\"".data =
      "      url \"https://github.com/ubcent/velar/".data ++ (repl3 version ++ "\"".data) := by
    rw [List.append_assoc]
  rw [e, pyStrip_append_good (goodHead_append (goodHead_repl3 version) _)]
  rw [pyRstrip_quote_append]
  rfl

theorem velar_versionLine_pV (version : List Char) :
    ("version \"".data).isPrefixOf
      (pyStrip ("  version \"".data ++ version.dropWhile (fun c => c = 'v') ++
        "\"".data)) = true := by
  rw [pyStrip_velar_versionLine, List.append_assoc]
  exact isPrefixOf_self _ _

theorem velar_versionLine_pU (version : List Char) :
    ("url \"".data).isPrefixOf
      (pyStrip ("  version \"".data ++ version.dropWhile (fun c => c = 'v') ++
        "\"".data)) = false := by
  rw [pyStrip_velar_versionLine]
  rw [show ("version \"".data ++ version.dropWhile (fun c => c = 'v')) ++ "\"".data =
    'v' :: ("ersion \"".data ++ version.dropWhile (fun c => c = 'v') ++ "\"".data)
    from rfl]
  exact isPrefixOf_cons_of_ne_head (show ("url \"".data).head? = some 'u' from rfl)
    (by decide)

theorem velar_versionLine_pSha (version : List Char) :
    isShaLine ("  version \"".data ++ version.dropWhile (fun c => c = 'v') ++
      "\"".data) = false := by
  unfold isShaLine
  rw [pyStrip_velar_versionLine]
  rw [show ("version \"".data ++ version.dropWhile (fun c => c = 'v')) ++ "\"".data =
    'v' :: ("ersion \"".data ++ version.dropWhile (fun c => c = 'v') ++ "\"".data)
    from rfl]
  exact isPrefixOf_cons_of_ne_head (show shaKey.head? = some 's' from rfl) (by decide)

theorem velar_urlLine2_pU (version : List Char) :
    ("url \"".data).isPrefixOf
      (pyStrip ("      url \"https://github.com/ubcent/velar/".data ++ repl2 version ++ "\"".data)) = true := by
  rw [pyStrip_velar_urlLine2]
  rw [show "url \"https://github.com/ubcent/velar/".data ++ (repl2 version ++ "\"".data) =
    "url \"".data ++ ("https://github.com/ubcent/velar/".data ++
      (repl2 version ++ "\"".data)) from rfl]
  exact isPrefixOf_self _ _

theorem velar_urlLine2_pV (version : List Char) :
    ("version \"".data).isPrefixOf
      (pyStrip ("      url \"https://github.com/ubcent/velar/".data ++ repl2 version ++ "\"".data)) = false := by
  rw [pyStrip_velar_urlLine2]
  rw [show "url \"https://github.com/ubcent/velar/".data ++ (repl2 version ++ "\"".data) =
    'u' :: ("rl \"https://github.com/ubcent/velar/".data ++
      (repl2 version ++ "\"".data)) from rfl]
  exact isPrefixOf_cons_of_ne_head (show ("version \"".data).head? = some 'v' from rfl)
    (by decide)

theorem velar_urlLine2_pSha (version : List Char) :
    isShaLine ("      url \"https://github.com/ubcent/velar/".data ++ repl2 version ++ "\"".data) = false := by
  unfold isShaLine
  rw [pyStrip_velar_urlLine2]
  rw [show "url \"https://github.com/ubcent/velar/".data ++ (repl2 version ++ "\"".data) =
    'u' :: ("rl \"https://github.com/ubcent/velar/".data ++
      (repl2 version ++ "\"".data)) from rfl]
  exact isPrefixOf_cons_of_ne_head (show shaKey.head? = some 's' from rfl) (by decide)

theorem velar_urlLine3_pU (version : List Char) :
    ("url \"".data).isPrefixOf
      (pyStrip ("      url \"https://github.com/ubcent/velar/".data ++ repl3 version ++ "\"".data)) = true := by
  rw [pyStrip_velar_urlLine3]
  rw [show "url \"https://github.com/ubcent/velar/".data ++ (repl3 version ++ "\"".data) =
    "url \"".data ++ ("https://github.com/ubcent/velar/".data ++
      (repl3 version ++ "\"".data)) from rfl]
  exact isPrefixOf_self _ _

theorem velar_urlLine3_pV (version : List Char) :
    ("version \"".data).isPrefixOf
      (pyStrip ("      url \"https://github.com/ubcent/velar/".data ++ repl3 version ++ "\"".data)) = false := by
  rw [pyStrip_velar_urlLine3]
  rw [show "url \"https://github.com/ubcent/velar/".data ++ (repl3 version ++ "\"".data) =
    'u' :: ("rl \"https://github.com/ubcent/velar/".data ++
      (repl3 version ++ "\"".data)) from rfl]
  exact isPrefixOf_cons_of_ne_head (show ("version \"".data).head? = some 'v' from rfl)
    (by decide)

theorem velar_urlLine3_pSha (version : List Char) :
    isShaLine ("      url \"https://github.com/ubcent/velar/".data ++ repl3 version ++ "\"".data) = false := by
  unfold isShaLine
  rw [pyStrip_velar_urlLine3]
  rw [show "url \"https://github.com/ubcent/velar/".data ++ (repl3 version ++ "\"".data) =
    'u' :: ("rl \"https://github.com/ubcent/velar/".data ++
      (repl3 version ++ "\"".data)) from rfl]
  exact isPrefixOf_cons_of_ne_head (show shaKey.head? = some 's' from rfl) (by decide)

theorem velar_shaLine_pV (sha : List Char) :
    ("version \"".data).isPrefixOf (pyStrip (shaLineFor sha)) = false := by
  rw [pyStrip_shaLineFor]
  rw [show "sha256 \"".data ++ (sha ++ "\"".data) =
    's' :: ("ha256 \"".data ++ (sha ++ "\"".data)) from rfl]
  exact isPrefixOf_cons_of_ne_head (show ("version \"".data).head? = some 'v' from rfl)
    (by decide)

theorem velar_shaLine_pU (sha : List Char) :
    ("url \"".data).isPrefixOf (pyStrip (shaLineFor sha)) = false := by
  rw [pyStrip_shaLineFor]
  rw [show "sha256 \"".data ++ (sha ++ "\"".data) =
    's' :: ("ha256 \"".data ++ (sha ++ "\"".data)) from rfl]
  exact isPrefixOf_cons_of_ne_head (show ("url \"".data).head? = some 'u' from rfl)
    (by decide)


/-- C5 as amended: on the canonical formula document, for every
    version string free of line-boundary characters, of '/' and of
    'x', and all checksum strings free of line-boundary characters,
    update_formula succeeds, and the written file's lines contain
    exactly one version declaration line — holding the supplied
    version with every leading 'v' removed —, exactly two url
    declaration lines — the arm64 and x86_64 download URLs with the
    raw version string interpolated —, and exactly two sha256 lines —
    the arm64 value at the arm anchor's position and the x86_64 value
    at the intel anchor's position. -/
theorem C5_canonical_invariant (path version shaA shaI : List Char)
    (hv : ∀ c ∈ version, isLB c = false)
    (hv2 : ∀ c ∈ version, c ≠ '/') (hvx : ∀ c ∈ version, c ≠ 'x')
    (ha : ∀ c ∈ shaA, isLB c = false) (hb : ∀ c ∈ shaI, isLB c = false) :
    ∃ out, update_formula path version shaA shaI velarFormula = Except.ok out ∧
      pySplitlines out = velarLinesOut version shaA shaI ∧
      (velarLinesOut version shaA shaI).countP
        (fun l => ("version \"".data).isPrefixOf (pyStrip l)) = 1 ∧
      (velarLinesOut version shaA shaI).getD 3 [] =
        "  version \"".data ++ version.dropWhile (fun c => c = 'v') ++ "\"".data ∧
      (velarLinesOut version shaA shaI).countP
        (fun l => ("url \"".data).isPrefixOf (pyStrip l)) = 2 ∧
      (velarLinesOut version shaA shaI).getD 6 [] =
        "      url \"https://github.com/ubcent/velar/".data ++ repl2 version ++ "\"".data ∧
      (velarLinesOut version shaA shaI).getD 10 [] =
        "      url \"https://github.com/ubcent/velar/".data ++ repl3 version ++ "\"".data ∧
      (velarLinesOut version shaA shaI).countP (fun l => isShaLine l) = 2 ∧
      (velarLinesOut version shaA shaI).getD 7 [] = shaLineFor shaA ∧
      (velarLinesOut version shaA shaI).getD 11 [] = shaLineFor shaI := by
  have hse : statusEq (velarLinesMid version) velarLines := by
    rw [← velar_mid hv2 hvx]
    exact statusEq_map_lineSub version velarLines
  have hsplit0 : pySplitlines (phase1 version velarFormula) = velarLinesMid version := by
    rw [phase1_lines hv velarFormula, velar_split, velar_mid hv2 hvx]
  have hwrites : writesOn (velarLinesMid version) shaA shaI
      (List.range (velarLinesMid version).length) =
      [(7, shaLineFor shaA), (11, shaLineFor shaI)] := by
    rw [writesOn_congr hse shaA shaI]
    rfl
  have hlines : (scanLines shaA shaI (velarLinesMid version)).lines =
      velarLinesOut version shaA shaI := by
    rw [scanLines_lines, hwrites]
    rfl
  have hfa3 : armHit (pySplitlines (phase1 version velarFormula))
      (List.range (pySplitlines (phase1 version velarFormula)).length) = true := by
    rw [hsplit0, armHit_congr hse]
    rfl
  have hfi3 : intelHit (pySplitlines (phase1 version velarFormula))
      (List.range (pySplitlines (phase1 version velarFormula)).length) = true := by
    rw [hsplit0, intelHit_congr hse]
    rfl
  have hok : update_formula path version shaA shaI velarFormula =
      Except.ok (joinNl (velarLinesOut version shaA shaI) ++ ['\n']) := by
    rw [update_formula_ok hfa3 hfi3, hsplit0, hlines]
  have hq : ∀ d ∈ "\"".data, isLB d = false := by decide
  have hnoLB : ∀ l ∈ velarLinesOut version shaA shaI, ∀ c ∈ l, isLB c = false := by
    have hA : ∀ d ∈ "      url \"https://github.com/ubcent/velar/".data, isLB d = false := by decide
    have hV : ∀ d ∈ "  version \"".data, isLB d = false := by decide
    intro l hl
    unfold velarLinesOut at hl
    simp only [List.mem_cons, List.not_mem_nil, or_false] at hl
    rcases hl with rfl | rfl | rfl | rfl | rfl | rfl | rfl | rfl | rfl | rfl | rfl |
      rfl | rfl | rfl | rfl
    · exact fun c hc =>
        (show ∀ d ∈ "class Velar < Formula".data, isLB d = false from by decide) c hc
    · exact fun c hc =>
        (show ∀ d ∈ "  desc \"Velar\"".data, isLB d = false from by decide) c hc
    · exact fun c hc =>
        (show ∀ d ∈ "  homepage \"https://github.com/ubcent/velar\"".data,
          isLB d = false from by decide) c hc
    · intro c hc
      rcases List.mem_append.1 hc with h | h
      · rcases List.mem_append.1 h with h2 | h2
        · exact hV c h2
        · exact hv c (List.Sublist.mem h2 (List.dropWhile_sublist _))
      · exact hq c h
    · exact fun c hc =>
        (show ∀ d ∈ "  on_macos do".data, isLB d = false from by decide) c hc
    · exact fun c hc =>
        (show ∀ d ∈ "    on_arm do".data, isLB d = false from by decide) c hc
    · intro c hc
      rcases List.mem_append.1 hc with h | h
      · rcases List.mem_append.1 h with h2 | h2
        · exact hA c h2
        · exact repl2_noLB hv c h2
      · exact hq c h
    · intro c hc
      unfold shaLineFor at hc
      simp only [List.append_assoc, List.mem_append] at hc
      rcases hc with h | h | h
      · exact (show ∀ d ∈ "      sha256 \"".data, isLB d = false from by decide) c h
      · exact ha c h
      · exact hq c h
    · exact fun c hc =>
        (show ∀ d ∈ "    end".data, isLB d = false from by decide) c hc
    · exact fun c hc =>
        (show ∀ d ∈ "    on_intel do".data, isLB d = false from by decide) c hc
    · intro c hc
      rcases List.mem_append.1 hc with h | h
      · rcases List.mem_append.1 h with h2 | h2
        · exact hA c h2
        · exact repl3_noLB hv c h2
      · exact hq c h
    · intro c hc
      unfold shaLineFor at hc
      simp only [List.append_assoc, List.mem_append] at hc
      rcases hc with h | h | h
      · exact (show ∀ d ∈ "      sha256 \"".data, isLB d = false from by decide) c h
      · exact hb c h
      · exact hq c h
    · exact fun c hc =>
        (show ∀ d ∈ "    end".data, isLB d = false from by decide) c hc
    · exact fun c hc =>
        (show ∀ d ∈ "  end".data, isLB d = false from by decide) c hc
    · exact fun c hc =>
        (show ∀ d ∈ "end".data, isLB d = false from by decide) c hc
  have hsplit2 : pySplitlines (joinNl (velarLinesOut version shaA shaI) ++ ['\n']) =
      velarLinesOut version shaA shaI :=
    pySplitlines_joinNl (by unfold velarLinesOut; simp) hnoLB
  have dV0 : ("version \"".data).isPrefixOf (pyStrip "class Velar < Formula".data) = false := by decide
  have dV1 : ("version \"".data).isPrefixOf (pyStrip "  desc \"Velar\"".data) = false := by decide
  have dV2 : ("version \"".data).isPrefixOf (pyStrip "  homepage \"https://github.com/ubcent/velar\"".data) = false := by decide
  have dV4 : ("version \"".data).isPrefixOf (pyStrip "  on_macos do".data) = false := by decide
  have dV5 : ("version \"".data).isPrefixOf (pyStrip "    on_arm do".data) = false := by decide
  have dV8 : ("version \"".data).isPrefixOf (pyStrip "    end".data) = false := by decide
  have dV9 : ("version \"".data).isPrefixOf (pyStrip "    on_intel do".data) = false := by decide
  have dV13 : ("version \"".data).isPrefixOf (pyStrip "  end".data) = false := by decide
  have dV14 : ("version \"".data).isPrefixOf (pyStrip "end".data) = false := by decide
  have dU0 : ("url \"".data).isPrefixOf (pyStrip "class Velar < Formula".data) = false := by decide
  have dU1 : ("url \"".data).isPrefixOf (pyStrip "  desc \"Velar\"".data) = false := by decide
  have dU2 : ("url \"".data).isPrefixOf (pyStrip "  homepage \"https://github.com/ubcent/velar\"".data) = false := by decide
  have dU4 : ("url \"".data).isPrefixOf (pyStrip "  on_macos do".data) = false := by decide
  have dU5 : ("url \"".data).isPrefixOf (pyStrip "    on_arm do".data) = false := by decide
  have dU8 : ("url \"".data).isPrefixOf (pyStrip "    end".data) = false := by decide
  have dU9 : ("url \"".data).isPrefixOf (pyStrip "    on_intel do".data) = false := by decide
  have dU13 : ("url \"".data).isPrefixOf (pyStrip "  end".data) = false := by decide
  have dU14 : ("url \"".data).isPrefixOf (pyStrip "end".data) = false := by decide
  have dS0 : isShaLine "class Velar < Formula".data = false := by decide
  have dS1 : isShaLine "  desc \"Velar\"".data = false := by decide
  have dS2 : isShaLine "  homepage \"https://github.com/ubcent/velar\"".data = false := by decide
  have dS4 : isShaLine "  on_macos do".data = false := by decide
  have dS5 : isShaLine "    on_arm do".data = false := by decide
  have dS8 : isShaLine "    end".data = false := by decide
  have dS9 : isShaLine "    on_intel do".data = false := by decide
  have dS13 : isShaLine "  end".data = false := by decide
  have dS14 : isShaLine "end".data = false := by decide
  have cV : (velarLinesOut version shaA shaI).countP
      (fun l => ("version \"".data).isPrefixOf (pyStrip l)) = 1 := by
    unfold velarLinesOut
    simp only [List.countP_cons, List.countP_nil]
    rw [if_neg (ne_true_of_eq_false dV0), if_neg (ne_true_of_eq_false dV1),
      if_neg (ne_true_of_eq_false dV2),
      if_pos (velar_versionLine_pV version),
      if_neg (ne_true_of_eq_false dV4), if_neg (ne_true_of_eq_false dV5),
      if_neg (ne_true_of_eq_false (velar_urlLine2_pV version)),
      if_neg (ne_true_of_eq_false (velar_shaLine_pV shaA)),
      if_neg (ne_true_of_eq_false dV8), if_neg (ne_true_of_eq_false dV9),
      if_neg (ne_true_of_eq_false (velar_urlLine3_pV version)),
      if_neg (ne_true_of_eq_false (velar_shaLine_pV shaI)),
      if_neg (ne_true_of_eq_false dV13), if_neg (ne_true_of_eq_false dV14)]
  have cU : (velarLinesOut version shaA shaI).countP
      (fun l => ("url \"".data).isPrefixOf (pyStrip l)) = 2 := by
    unfold velarLinesOut
    simp only [List.countP_cons, List.countP_nil]
    rw [if_neg (ne_true_of_eq_false dU0), if_neg (ne_true_of_eq_false dU1),
      if_neg (ne_true_of_eq_false dU2),
      if_neg (ne_true_of_eq_false (velar_versionLine_pU version)),
      if_neg (ne_true_of_eq_false dU4), if_neg (ne_true_of_eq_false dU5),
      if_pos (velar_urlLine2_pU version),
      if_neg (ne_true_of_eq_false (velar_shaLine_pU shaA)),
      if_neg (ne_true_of_eq_false dU8), if_neg (ne_true_of_eq_false dU9),
      if_pos (velar_urlLine3_pU version),
      if_neg (ne_true_of_eq_false (velar_shaLine_pU shaI)),
      if_neg (ne_true_of_eq_false dU13), if_neg (ne_true_of_eq_false dU14)]
  have cS : (velarLinesOut version shaA shaI).countP (fun l => isShaLine l) = 2 := by
    unfold velarLinesOut
    simp only [List.countP_cons, List.countP_nil]
    rw [if_neg (ne_true_of_eq_false dS0), if_neg (ne_true_of_eq_false dS1),
      if_neg (ne_true_of_eq_false dS2),
      if_neg (ne_true_of_eq_false (velar_versionLine_pSha version)),
      if_neg (ne_true_of_eq_false dS4), if_neg (ne_true_of_eq_false dS5),
      if_neg (ne_true_of_eq_false (velar_urlLine2_pSha version)),
      if_pos (isShaLine_shaLineFor shaA),
      if_neg (ne_true_of_eq_false dS8), if_neg (ne_true_of_eq_false dS9),
      if_neg (ne_true_of_eq_false (velar_urlLine3_pSha version)),
      if_pos (isShaLine_shaLineFor shaI),
      if_neg (ne_true_of_eq_false dS13), if_neg (ne_true_of_eq_false dS14)]
  exact ⟨joinNl (velarLinesOut version shaA shaI) ++ ['\n'], hok, hsplit2, cV, rfl,
    cU, rfl, rfl, cS, rfl, rfl⟩

theorem C5_canonical_invariant_witness :
    ∃ out, update_formula "p".data "v1.2.3".data "aa11".data "bb22".data velarFormula =
        Except.ok out ∧
      pySplitlines out = velarLinesOut "v1.2.3".data "aa11".data "bb22".data ∧
      (velarLinesOut "v1.2.3".data "aa11".data "bb22".data).countP
        (fun l => ("version \"".data).isPrefixOf (pyStrip l)) = 1 ∧
      (velarLinesOut "v1.2.3".data "aa11".data "bb22".data).getD 3 [] =
        "  version \"".data ++ "v1.2.3".data.dropWhile (fun c => c = 'v') ++
          "\"".data ∧
      (velarLinesOut "v1.2.3".data "aa11".data "bb22".data).countP
        (fun l => ("url \"".data).isPrefixOf (pyStrip l)) = 2 ∧
      (velarLinesOut "v1.2.3".data "aa11".data "bb22".data).getD 6 [] =
        "      url \"https://github.com/ubcent/velar/".data ++ repl2 "v1.2.3".data ++ "\"".data ∧
      (velarLinesOut "v1.2.3".data "aa11".data "bb22".data).getD 10 [] =
        "      url \"https://github.com/ubcent/velar/".data ++ repl3 "v1.2.3".data ++ "\"".data ∧
      (velarLinesOut "v1.2.3".data "aa11".data "bb22".data).countP
        (fun l => isShaLine l) = 2 ∧
      (velarLinesOut "v1.2.3".data "aa11".data "bb22".data).getD 7 [] =
        shaLineFor "aa11".data ∧
      (velarLinesOut "v1.2.3".data "aa11".data "bb22".data).getD 11 [] =
        shaLineFor "bb22".data :=
  C5_canonical_invariant "p".data "v1.2.3".data "aa11".data "bb22".data
    (by decide) (by decide) (by decide) (by decide) (by decide)

/- ---- C8 ---- -/

/-- C8 as amended: if the checksum strings contain no line-boundary
    character (no character at which str.splitlines breaks) and the
    first run's output contains none of the three placeholder strings,
    then a second run on the produced file succeeds and writes
    identical content. -/
theorem C8_idempotent (path version shaA shaI text out : List Char)
    (hok : update_formula path version shaA shaI text = Except.ok out)
    (ha : ∀ c ∈ shaA, isLB c = false) (hb : ∀ c ∈ shaI, isLB c = false)
    (h1 : containsSub pat1 out = false)
    (h2 : containsSub pat2 out = false)
    (h3 : containsSub pat3 out = false) :
    update_formula path version shaA shaI out = Except.ok out := by
  obtain ⟨hfa, hfi, hout⟩ := update_formula_ok_flags hok
  have hphase : phase1 version out = out := by
    unfold phase1
    rw [replaceAll_of_not_contains h1, replaceAll_of_not_contains h2,
      replaceAll_of_not_contains h3]
  have hls1nl : ∀ l ∈ (scanLines shaA shaI (pySplitlines (phase1 version text))).lines,
      ∀ c ∈ l, isLB c = false :=
    scanLines_lines_noLB (fun l hl => pySplitlines_lines_noLB _ l hl) ha hb
  have hne : (scanLines shaA shaI (pySplitlines (phase1 version text))).lines ≠ [] := by
    obtain ⟨i, hi, _, _⟩ := (armHit_iff _).1 hfa
    intro h0
    have hl := applyWrites_length
      (writesOn (pySplitlines (phase1 version text)) shaA shaI
        (List.range (pySplitlines (phase1 version text)).length))
      (pySplitlines (phase1 version text))
    rw [← scanLines_lines, h0] at hl
    simp at hl
    omega
  have hsplit : pySplitlines out =
      (scanLines shaA shaI (pySplitlines (phase1 version text))).lines := by
    rw [hout]
    exact pySplitlines_joinNl hne hls1nl
  have hsc2 : pySplitlines (phase1 version out) =
      (scanLines shaA shaI (pySplitlines (phase1 version text))).lines := by
    rw [hphase, hsplit]
  have hse := statusEq_scan_result shaA shaI (pySplitlines (phase1 version text))
  have hfa2 : armHit (pySplitlines (phase1 version out))
      (List.range (pySplitlines (phase1 version out)).length) = true := by
    rw [hsc2, armHit_congr hse, hfa]
  have hfi2 : intelHit (pySplitlines (phase1 version out))
      (List.range (pySplitlines (phase1 version out)).length) = true := by
    rw [hsc2, intelHit_congr hse, hfi]
  rw [update_formula_ok hfa2 hfi2]
  have hsame : (scanLines shaA shaI (pySplitlines (phase1 version out))).lines =
      (scanLines shaA shaI (pySplitlines (phase1 version text))).lines := by
    rw [hsc2]
    exact scan_scan_lines shaA shaI (pySplitlines (phase1 version text))
  rw [hsame, ← hout]

theorem C8_idempotent_witness :
    update_formula "p".data "v1.2.3".data "aa11".data "bb22".data velarOut =
      Except.ok velarOut :=
  C8_idempotent "p".data "v1.2.3".data "aa11".data "bb22".data velarFormula velarOut
    (by rfl) (by decide) (by decide) (by decide) (by decide) (by decide)

/-- C8 counterexample: with a newline inside the arm64 checksum string
    the first run succeeds, and the second run on its output also
    succeeds but produces different content (the injected extra line is
    duplicated), refuting idempotence as stated. -/
def c8Text : List Char := "on_arm do\n  sha256 \"old\"\non_intel do\n  sha256 \"old\"".data

def c8Out1 : List Char :=
  "on_arm do\n      sha256 \"A\nQ\"\non_intel do\n      sha256 \"B\"\n".data

def c8Out2 : List Char :=
  "on_arm do\n      sha256 \"A\nQ\"\nQ\"\non_intel do\n      sha256 \"B\"\n".data

theorem C8_counterexample :
    update_formula "p".data "v1".data "A\nQ".data "B".data c8Text =
      Except.ok c8Out1 ∧
    update_formula "p".data "v1".data "A\nQ".data "B".data c8Out1 =
      Except.ok c8Out2 ∧
    c8Out2 ≠ c8Out1 :=
  ⟨by rfl, by rfl, by decide⟩

/- sanity examples on concrete data -/

example :
    pySplitlines "on_arm do\n  sha256 \"x\"\n".data =
      ["on_arm do".data, "  sha256 \"x\"".data] := by rfl

example : isShaLine "  sha256 \"x\"".data = true := by rfl

example : isArmLine "  on_arm do  ".data = true := by rfl

example :
    update_formula "p".data "v1.2.3".data "A".data "B".data
      "on_arm do\n  sha256 \"x\"\non_intel do\n  sha256 \"y\"\n".data =
    Except.ok "on_arm do\n      sha256 \"A\"\non_intel do\n      sha256 \"B\"\n".data := by
  rfl

example :
    update_formula "p".data "v1.2.3".data "A".data "B".data
      "on_arm do\n  sha256 \"x\"\n".data =
    Except.error (errMsg "p".data) := by rfl
